import Mathlib

/-!
Verification development for the caption-rewriting single-page application
(batch caption rewriter).  The TypeScript sources are shallowly embedded:
pure functions become Lean functions, the batch worker pool becomes an
explicit step relation over a state type driven by a scheduler trace, and
fallible code returns `Except`/`Option`.
-/

namespace Pizhushou

/-! ## Data model (types.ts) -/

/-- The status of a caption row (`CaptionRow.status` in types.ts). -/
inductive Status
  | pending
  | processing
  | completed
  | err
deriving DecidableEq, Repr

/-- A caption row (interface `CaptionRow` in types.ts).  `errMsg` embeds the
optional `error` field. -/
structure CaptionRow where
  id : String
  original : String
  rewritten : Option String
  status : Status
  imagePath : Option String
  imageData : Option String
  errMsg : Option String
deriving DecidableEq, Repr

/-- Aggregate statistics (interface `ProcessingStats` in types.ts). -/
structure ProcessingStats where
  total : Nat
  completed : Nat
  failed : Nat
deriving DecidableEq, Repr

/-- A history session (interface `HistorySession` in types.ts). -/
structure HistorySession where
  id : String
  timestamp : Nat
  name : String
  stats : ProcessingStats
  data : List CaptionRow
deriving DecidableEq, Repr

/-! ## Local-storage history module (services/storage.ts) -/

/-- `stripImageData` from storage.ts: `data.map(row => ({...row, imageData: undefined}))`.
The spread copies every other field unchanged into a fresh object, so the
embedding is a pure map of a record update. -/
def stripImageData (data : List CaptionRow) : List CaptionRow :=
  data.map (fun row => { row with imageData := none })

/-- `saveSession` from storage.ts.  The non-deterministic environment values
(`uuidv4()`, `Date.now()`, the formatted session name) enter as parameters;
`stored` is the currently persisted session list (`getSessions()`).  Returns
the new session together with the list written back to storage:
`[newSession, ...sessions].slice(0, 20)`. -/
def saveSession (freshId : String) (now : Nat) (sessionName : String)
    (data : List CaptionRow) (stats : ProcessingStats)
    (stored : List HistorySession) : HistorySession × List HistorySession :=
  let newSession : HistorySession :=
    { id := freshId, timestamp := now, name := sessionName, stats := stats
      data := stripImageData data }
  (newSession, (newSession :: stored).take 20)

/-- One request to `saveSession`: the environment-supplied values together
with the row list and stats passed by the caller. -/
structure SaveReq where
  freshId : String
  now : Nat
  sessionName : String
  rows : List CaptionRow
  stats : ProcessingStats
deriving DecidableEq, Repr

/-- The session object `saveSession` builds for a request. -/
def mkSession (q : SaveReq) : HistorySession :=
  { id := q.freshId, timestamp := q.now, name := q.sessionName, stats := q.stats
    data := stripImageData q.rows }

/-- The storage list after serving one save request. -/
def applySave (stored : List HistorySession) (q : SaveReq) : List HistorySession :=
  (saveSession q.freshId q.now q.sessionName q.rows q.stats stored).2

/-! ## JSON values and a JSON parser

`getSessions` calls the host's `JSON.parse`, which is not part of the
repository's sources; it is modelled below by a strict JSON grammar parser. -/

/-- A JSON value.  Numbers keep their source lexeme: `getSessions` never
inspects numeric values, only parse success matters here. -/
inductive Json
  | null
  | bool (b : Bool)
  | num (lexeme : String)
  | str (s : String)
  | arr (items : List Json)
  | obj (fields : List (String × Json))

/-- JSON insignificant whitespace. -/
def jsonWs (c : Char) : Bool :=
  c = ' ' || c = '\t' || c = '\n' || c = '\r'

/-- Skip JSON whitespace. -/
def skipWs (l : List Char) : List Char :=
  l.dropWhile jsonWs

/-- Match a literal keyword (`null`, `true`, `false`). -/
def matchLit : List Char → List Char → Option (List Char)
  | [], rest => some rest
  | _, [] => none
  | k :: ks, c :: cs => if c = k then matchLit ks cs else none

/-- Hexadecimal digit value. -/
def hexVal (c : Char) : Option Nat :=
  if '0' ≤ c ∧ c ≤ '9' then some (c.toNat - '0'.toNat)
  else if 'a' ≤ c ∧ c ≤ 'f' then some (c.toNat - 'a'.toNat + 10)
  else if 'A' ≤ c ∧ c ≤ 'F' then some (c.toNat - 'A'.toNat + 10)
  else none

/-- Parse the body of a JSON string after the opening quote. -/
def parseJStringAux : Nat → List Char → List Char → Option (String × List Char)
  | 0, _, _ => none
  | _ + 1, _, [] => none
  | fuel + 1, acc, c :: cs =>
    if c = '"' then some (String.mk acc.reverse, cs)
    else if c = '\\' then
      match cs with
      | [] => none
      | e :: cs2 =>
        if e = '"' then parseJStringAux fuel ('"' :: acc) cs2
        else if e = '\\' then parseJStringAux fuel ('\\' :: acc) cs2
        else if e = '/' then parseJStringAux fuel ('/' :: acc) cs2
        else if e = 'b' then parseJStringAux fuel ('\x08' :: acc) cs2
        else if e = 'f' then parseJStringAux fuel ('\x0c' :: acc) cs2
        else if e = 'n' then parseJStringAux fuel ('\n' :: acc) cs2
        else if e = 'r' then parseJStringAux fuel ('\r' :: acc) cs2
        else if e = 't' then parseJStringAux fuel ('\t' :: acc) cs2
        else if e = 'u' then
          match cs2 with
          | h1 :: h2 :: h3 :: h4 :: cs3 =>
            match hexVal h1, hexVal h2, hexVal h3, hexVal h4 with
            | some a, some b, some c3, some d =>
              parseJStringAux fuel
                (Char.ofNat (((a * 16 + b) * 16 + c3) * 16 + d) :: acc) cs3
            | _, _, _, _ => none
          | _ => none
        else none
    else if c.toNat < 0x20 then none
    else parseJStringAux fuel (c :: acc) cs

/-- Parse a JSON string given the input after the opening quote. -/
def parseJString (l : List Char) : Option (String × List Char) :=
  parseJStringAux (l.length + 1) [] l

/-- Digits. -/
def isDigit (c : Char) : Bool := '0' ≤ c && c ≤ '9'

/-- Parse a JSON number lexeme (strict grammar). -/
def parseJNumber (l : List Char) : Option (String × List Char) :=
  let (sign, l1) := match l with
    | '-' :: rest => ([ '-' ], rest)
    | _ => ([], l)
  match l1 with
  | [] => none
  | c :: _ =>
    if ¬ isDigit c then none
    else
      let intPart := l1.takeWhile isDigit
      let l2 := l1.dropWhile isDigit
      if intPart.length > 1 ∧ intPart.headD '0' = '0' then none
      else
        let (fracPart, l3) := match l2 with
          | '.' :: rest =>
            let ds := rest.takeWhile isDigit
            if ds = [] then ([' '], l2)  -- marker for failure below
            else ('.' :: ds, rest.dropWhile isDigit)
          | _ => ([], l2)
        if fracPart = [' '] then none
        else
          let (expPart, l4) := match l3 with
            | e :: rest =>
              if e = 'e' ∨ e = 'E' then
                let (es, rest2) := match rest with
                  | s :: r2 => if s = '+' ∨ s = '-' then ([e, s], r2) else ([e], rest)
                  | [] => ([e], rest)
                let ds := rest2.takeWhile isDigit
                if ds = [] then ([' '], l3)
                else (es ++ ds, rest2.dropWhile isDigit)
              else ([], l3)
            | [] => ([], l3)
          if expPart = [' '] then none
          else some (String.mk (sign ++ intPart ++ fracPart ++ expPart), l4)

mutual

/-- Parse one JSON value.  Fuel bounds the recursion depth; `jsonParse`
supplies enough fuel for any input of the given length. -/
def parseJValue : Nat → List Char → Option (Json × List Char)
  | 0, _ => none
  | fuel + 1, input =>
    match skipWs input with
    | [] => none
    | c :: rest =>
      if c = '"' then
        match parseJString rest with
        | some (s, r) => some (.str s, r)
        | none => none
      else if c = Char.ofNat 123 then
        parseJObj fuel rest
      else if c = '[' then
        parseJArr fuel rest
      else
        match matchLit ('n' :: 'u' :: 'l' :: 'l' :: []) (c :: rest) with
        | some r => some (.null, r)
        | none =>
          match matchLit ('t' :: 'r' :: 'u' :: 'e' :: []) (c :: rest) with
          | some r => some (.bool true, r)
          | none =>
            match matchLit ('f' :: 'a' :: 'l' :: 's' :: 'e' :: []) (c :: rest) with
            | some r => some (.bool false, r)
            | none =>
              match parseJNumber (c :: rest) with
              | some (s, r) => some (.num s, r)
              | none => none

/-- Parse the items of a JSON array after the opening bracket. -/
def parseJArr : Nat → List Char → Option (Json × List Char)
  | 0, _ => none
  | fuel + 1, input =>
    match skipWs input with
    | ']' :: rest => some (.arr [], rest)
    | _ =>
      match parseJValue fuel input with
      | none => none
      | some (v, r) =>
        match parseJArrTail fuel [v] r with
        | some (items, r2) => some (.arr items, r2)
        | none => none

/-- Parse `, value`* `]` of a JSON array.  `acc` holds items in reverse. -/
def parseJArrTail : Nat → List Json → List Char → Option (List Json × List Char)
  | 0, _, _ => none
  | fuel + 1, acc, input =>
    match skipWs input with
    | ']' :: rest => some (acc.reverse, rest)
    | ',' :: rest =>
      match parseJValue fuel rest with
      | some (v, r) => parseJArrTail fuel (v :: acc) r
      | none => none
    | _ => none

/-- Parse the fields of a JSON object after the opening brace. -/
def parseJObj : Nat → List Char → Option (Json × List Char)
  | 0, _ => none
  | fuel + 1, input =>
    match skipWs input with
    | [] => none
    | c :: rest =>
      if c = Char.ofNat 125 then some (.obj [], rest)
      else
        match parseJField fuel (c :: rest) with
        | none => none
        | some (f, r) =>
          match parseJObjTail fuel [f] r with
          | some (fields, r2) => some (.obj fields, r2)
          | none => none

/-- Parse one `"key": value` field. -/
def parseJField : Nat → List Char → Option ((String × Json) × List Char)
  | 0, _ => none
  | fuel + 1, input =>
    match skipWs input with
    | '"' :: rest =>
      match parseJString rest with
      | none => none
      | some (k, r) =>
        match skipWs r with
        | ':' :: r2 =>
          match parseJValue fuel r2 with
          | some (v, r3) => some ((k, v), r3)
          | none => none
        | _ => none
    | _ => none

/-- Parse `, field`* `}` of a JSON object.  `acc` holds fields in reverse. -/
def parseJObjTail : Nat → List (String × Json) → List Char →
    Option (List (String × Json) × List Char)
  | 0, _, _ => none
  | fuel + 1, acc, input =>
    match skipWs input with
    | [] => none
    | c :: rest =>
      if c = Char.ofNat 125 then some (acc.reverse, rest)
      else if c = ',' then
        match parseJField fuel rest with
        | some (f, r) => parseJObjTail fuel (f :: acc) r
        | none => none
      else none

end

/-- Modelled from the spec: the host runtime's `JSON.parse` builtin, which is
not part of the repository's sources.  A strict JSON grammar parser: returns
`none` exactly when the input is not valid JSON (so `JSON.parse` would
throw).  Trailing garbage after the value is rejected, as in `JSON.parse`. -/
def jsonParse (s : String) : Option Json :=
  match parseJValue (2 * s.data.length + 2) s.data with
  | some (v, rest) => if skipWs rest = [] then some v else none
  | none => none

/-- `getSessions` from storage.ts over an abstract store content
(`localStorage.getItem(STORAGE_KEY)` returns `none` when the key is absent).
`raw ? JSON.parse(raw) : []` with the surrounding `try/catch` returning `[]`
on any parse failure; a successful parse is returned as-is (the TypeScript
cast performs no validation). -/
def getSessions (stored : Option String) : Json :=
  match stored with
  | none => Json.arr []
  | some raw =>
    if raw = "" then Json.arr []
    else
      match jsonParse raw with
      | some v => v
      | none => Json.arr []

/-! ## JavaScript string helpers -/

/-- Whether `pat` is a prefix of the second list. -/
def listStartsWith : List Char → List Char → Bool
  | [], _ => true
  | _ :: _, [] => false
  | p :: ps, c :: cs => p = c && listStartsWith ps cs

/-- Whether `pat` occurs contiguously inside the second list. -/
def listIsInfix (pat : List Char) : List Char → Bool
  | [] => pat.isEmpty
  | c :: cs => listStartsWith pat (c :: cs) || listIsInfix pat cs

/-- JavaScript's `String.prototype.includes`: `pat` occurs as a contiguous
substring of `s` (case-sensitive). -/
def jsIncludes (s pat : String) : Bool :=
  listIsInfix pat.data s.data

/-- JavaScript's `\s` character class (whitespace as used by `trim` and by
regular expressions). -/
def jsSpace (c : Char) : Bool :=
  c = ' ' || c = '\t' || c = '\n' || c = '\r' || c = '\x0b' || c = '\x0c' ||
  c.toNat = 0xa0 || c.toNat = 0x1680 ||
  (0x2000 ≤ c.toNat && c.toNat ≤ 0x200a) ||
  c.toNat = 0x2028 || c.toNat = 0x2029 || c.toNat = 0x202f ||
  c.toNat = 0x205f || c.toNat = 0x3000 || c.toNat = 0xfeff

/-- JavaScript's `String.prototype.trim`: strip `\s` characters from both
ends. -/
def jsTrim (s : String) : String :=
  String.mk (((s.data.dropWhile jsSpace).reverse.dropWhile jsSpace).reverse)

/-- JavaScript's `String.prototype.toLowerCase` (character-wise lowering). -/
def lowerStr (s : String) : String :=
  String.mk (s.data.map Char.toLower)

/-- JavaScript truthiness of an optional string: `undefined`/`null` and the
empty string are falsy. -/
def jsFalsyStr (o : Option String) : Bool :=
  match o with
  | none => true
  | some s => s = ""

/-- `x || y` on an optional string against a string default (JavaScript `||`
returns the default when the value is absent or empty). -/
def jsOrStr (o : Option String) (d : String) : String :=
  match o with
  | none => d
  | some s => if s = "" then d else s

/-! ## Character diff

The view layer and the exporter both call `Diff.diffChars` from the external
`diff` (jsdiff) library, which is not part of the repository's sources.
Modelled from the spec: "character-level differences between original and
rewritten captions" — a longest-common-subsequence character diff whose
output is a list of coalesced parts, each either unchanged, added (present
only in the new string) or removed (present only in the old string). -/

/-- A diff operation on one character. -/
inductive DOp
  | keep
  | ins
  | del
deriving DecidableEq, Repr

/-- Length of a longest common subsequence of two character lists; the fuel
argument (structural) only needs to cover the summed lengths. -/
def lcsLenF : Nat → List Char → List Char → Nat
  | _, [], _ => 0
  | _, _ :: _, [] => 0
  | 0, _ :: _, _ :: _ => 0
  | fuel + 1, x :: xs, y :: ys =>
    if x = y then 1 + lcsLenF fuel xs ys
    else max (lcsLenF fuel xs (y :: ys)) (lcsLenF fuel (x :: xs) ys)

/-- Length of a longest common subsequence of two character lists. -/
def lcsLen (xs ys : List Char) : Nat :=
  lcsLenF (xs.length + ys.length) xs ys

/-- Character-level edit script between two character lists, following a
longest common subsequence; fueled like `lcsLenF`. -/
def ldiffF : Nat → List Char → List Char → List (Char × DOp)
  | _, [], ys => ys.map (fun y => (y, DOp.ins))
  | _, x :: xs, [] => (x, DOp.del) :: xs.map (fun x2 => (x2, DOp.del))
  | 0, _ :: _, _ :: _ => []
  | fuel + 1, x :: xs, y :: ys =>
    if x = y then (x, DOp.keep) :: ldiffF fuel xs ys
    else if lcsLen (x :: xs) ys ≤ lcsLen xs (y :: ys) then
      (x, DOp.del) :: ldiffF fuel xs (y :: ys)
    else
      (y, DOp.ins) :: ldiffF fuel (x :: xs) ys

/-- Character-level edit script between two character lists. -/
def ldiff (xs ys : List Char) : List (Char × DOp) :=
  ldiffF (xs.length + ys.length) xs ys

/-- Coalesce adjacent characters carrying the same operation into string
parts, as jsdiff's change objects do. -/
def coalesce : List (Char × DOp) → List (String × DOp)
  | [] => []
  | (c, o) :: rest =>
    match coalesce rest with
    | [] => [(String.mk [c], o)]
    | (s, o2) :: tail =>
      if o = o2 then (String.mk (c :: s.data), o) :: tail
      else (String.mk [c], o) :: (s, o2) :: tail

/-- One change object of `Diff.diffChars`: a string part flagged added,
removed, or neither. -/
structure DiffPart where
  value : String
  added : Bool
  removed : Bool
deriving DecidableEq, Repr

/-- Whether an operation produces an `added` part. -/
def opAdded : DOp → Bool
  | DOp.ins => true
  | _ => false

/-- Whether an operation produces a `removed` part. -/
def opRemoved : DOp → Bool
  | DOp.del => true
  | _ => false

/-- `Diff.diffChars` (modelled from the spec, see above): the coalesced
character-level edit script between two strings. -/
def diffChars (a b : String) : List DiffPart :=
  (coalesce (ldiff a.data b.data)).map
    (fun p => { value := p.1, added := opAdded p.2, removed := opRemoved p.2 })

/-! ## Rewritten-text extraction (fileParser.ts / DataPreview.tsx)

`extractRewrittenText` applies the JavaScript regular expression
`/(?:改写caption|Rewritten Caption|改写后|Final Caption)\s*[:：]\s*([\s\S]+)$/i`
to the full analysis text and returns the trimmed first capture, or the
input unchanged when the pattern does not match.  The embedding reproduces
the engine's leftmost-match search, the ordered alternation, the greedy
`\s*` with backtracking, and the case-insensitive flag. -/

/-- The alternation labels of the extraction pattern, pre-lowercased for the
case-insensitive comparison. -/
def extractLabels : List (List Char) :=
  ["改写caption".data, "rewritten caption".data, "改写后".data, "final caption".data]

/-- Case-insensitively match a (lowercased) label at the head of the input,
returning the remainder on success. -/
def matchLabelAt : List Char → List Char → Option (List Char)
  | [], rest => some rest
  | _, [] => none
  | l :: ls, c :: cs => if c.toLower = l then matchLabelAt ls cs else none

/-- The `\s*([\s\S]+)$` suffix after the colon: greedy whitespace skip, then
a non-empty capture; when everything after the colon is whitespace the
greedy star backs off one character so the capture is the final character;
when nothing follows the colon the whole alternative fails. -/
def captureAfterColon (cs : List Char) : Option (List Char) :=
  if cs.isEmpty then none
  else
    let r := cs.dropWhile jsSpace
    if r.isEmpty then some (cs.drop (cs.length - 1))
    else some r

/-- Try one label alternative at the current position: label, `\s*`, an ASCII
or fullwidth colon, then the capture. -/
def tryLabel (lab input : List Char) : Option (List Char) :=
  match matchLabelAt lab input with
  | none => none
  | some rest =>
    match rest.dropWhile jsSpace with
    | [] => none
    | c :: cs => if c = ':' ∨ c = '：' then captureAfterColon cs else none

/-- Try every alternative, in pattern order, at the current position. -/
def tryAt (input : List Char) : Option (List Char) :=
  (extractLabels.filterMap (fun lab => tryLabel lab input)).head?

/-- Leftmost-match scan: try each start position from the left. -/
def scanExtract : List Char → Option (List Char)
  | [] => none
  | c :: rest =>
    match tryAt (c :: rest) with
    | some cap => some cap
    | none => scanExtract rest

/-- `extractRewrittenText` from fileParser.ts (the identical helper also
appears in DataPreview.tsx): `if (!fullText) return ''`; then the regex
match with the trimmed capture, falling back to the full text. -/
def extractRewrittenText (fullText : Option String) : String :=
  match fullText with
  | none => ""
  | some s =>
    if s = "" then ""
    else
      match scanExtract s.data with
      | some cap => jsTrim (String.mk cap)
      | none => s

/-! ## Diff rendering (DataPreview.tsx `DiffView`) -/

/-- Which column a `DiffView` renders. -/
inductive DiffColumn
  | original
  | rewritten
deriving DecidableEq, Repr

/-- One rendered span: highlighted (green diff marker) or plain text. -/
inductive Span
  | plain (text : String)
  | highlighted (text : String)
deriving DecidableEq, Repr

/-- The spans `DiffView` renders: it extracts the clean rewritten text, diffs
it against the original, and per column skips the other side's parts while
highlighting this side's changes. -/
def DiffView (original rewritten : String) (ty : DiffColumn) : List Span :=
  (diffChars original (extractRewrittenText (some rewritten))).filterMap (fun part =>
    match ty with
    | DiffColumn.original =>
      if part.added then none
      else if part.removed then some (Span.highlighted part.value)
      else some (Span.plain part.value)
    | DiffColumn.rewritten =>
      if part.removed then none
      else if part.added then some (Span.highlighted part.value)
      else some (Span.plain part.value))

/-! ## Spreadsheet model, import (App.tsx `handleExcelUpload`) and export
(fileParser.ts `exportToCSV`, App.tsx `handleDownload`) -/

/-- The textual content of a worksheet: a header row and data rows of plain
cell texts (`""` denotes a blank cell; a rich-text cell contributes the
concatenation of its runs as its text). -/
structure Sheet where
  headers : List String
  rows : List (List String)
deriving DecidableEq, Repr

/-- Modelled from the spec: `XLSX.utils.sheet_to_json` of the external xlsx
library (the spec treats spreadsheet parsing as library-handled).  Each data
row becomes a record keyed by header, in column order; blank cells produce
no key, and entirely blank rows produce no record. -/
def sheetToJson (sh : Sheet) : List (List (String × String)) :=
  (sh.rows.map (fun row => (sh.headers.zip row).filter (fun p => p.2 != ""))).filter
    (fun rec => !rec.isEmpty)

/-- The caption-column heuristic of `handleExcelUpload`:
`k.toLowerCase().includes('caption') || ...('desc') || ...('描述')`. -/
def captionPred (k : String) : Bool :=
  jsIncludes (lowerStr k) "caption" || jsIncludes (lowerStr k) "desc" ||
  jsIncludes (lowerStr k) "描述"

/-- The image-path-column heuristic of `handleExcelUpload`:
`k.toLowerCase().includes('path') || ...('image') || ...('img') || ...('图片')`. -/
def imagePred (k : String) : Bool :=
  jsIncludes (lowerStr k) "path" || jsIncludes (lowerStr k) "image" ||
  jsIncludes (lowerStr k) "img" || jsIncludes (lowerStr k) "图片"

/-- `row[k]` for a record: the value stored under the key, `""` when absent
(reading an absent key gives `undefined`, and the call sites wrap the read
in `String(... || '')` or pass a present key). -/
def lookupVal (rec : List (String × String)) (k : String) : String :=
  match rec.find? (fun p => p.1 == k) with
  | some p => p.2
  | none => ""

/-- A row produced by the spreadsheet import (the generated `id` is left to
the environment and not modelled; the claims do not concern it). -/
structure ImportedRow where
  original : String
  rewritten : Option String
  status : Status
  imagePath : Option String
deriving DecidableEq, Repr

/-- The per-record body of `handleExcelUpload`'s `jsonData.map`: locate the
caption key (first matching key, else the record's first key) and the image
key, and build a pending row. -/
def importRecord (rec : List (String × String)) : ImportedRow :=
  let keys := rec.map Prod.fst
  let captionKey : Option String :=
    match keys.find? captionPred with
    | some k => some k
    | none => keys.head?
  let imageKey := keys.find? imagePred
  { original :=
      match captionKey with
      | some k => lookupVal rec k
      | none => ""
    rewritten := none
    status := Status.pending
    imagePath := imageKey.map (fun k => lookupVal rec k) }

/-- `handleExcelUpload` over a parsed sheet: map records to rows, then
`filter(item => item.original && item.original.trim() !== '')`. -/
def handleExcelUpload (sh : Sheet) : List ImportedRow :=
  ((sheetToJson sh).map importRecord).filter
    (fun r => r.original != "" && jsTrim r.original != "")

/-- The `status` strings of a `CaptionRow` as exported. -/
def statusString : Status → String
  | Status.pending => "pending"
  | Status.processing => "processing"
  | Status.completed => "completed"
  | Status.err => "error"

/-- The per-item object `handleDownload` builds before calling
`exportToCSV`. -/
structure ExportRecord where
  id : String
  originalCaption : String
  rewrittenCaption : String
  imagePath : String
  statusVal : String
  errVal : String
deriving DecidableEq, Repr

/-- `handleDownload`'s `data.map`: `item.rewritten || ''`,
`item.imagePath || ''`, `item.error || ''`. -/
def handleDownloadRecord (r : CaptionRow) : ExportRecord :=
  { id := r.id
    originalCaption := r.original
    rewrittenCaption := jsOrStr r.rewritten ""
    imagePath := jsOrStr r.imagePath ""
    statusVal := statusString r.status
    errVal := jsOrStr r.errMsg "" }

/-- One rich-text run of the exported sheet: its text and whether it carries
the green highlight formatting. -/
structure TextRun where
  t : String
  highlighted : Bool
deriving DecidableEq, Repr

/-- The rich-text runs of the Original column: skip added parts, highlight
removed parts. -/
def originalRuns (orig clean : String) : List TextRun :=
  (diffChars orig clean).filterMap (fun part =>
    if part.added then none
    else if part.removed then some { t := part.value, highlighted := true }
    else some { t := part.value, highlighted := false })

/-- The rich-text runs of the Rewritten column: skip removed parts, highlight
added parts. -/
def rewrittenRuns (orig clean : String) : List TextRun :=
  (diffChars orig clean).filterMap (fun part =>
    if part.removed then none
    else if part.added then some { t := part.value, highlighted := true }
    else some { t := part.value, highlighted := false })

/-- Concatenated text of a run list (the plain-text value a reader obtains
from a rich-text cell). -/
def runsText (runs : List TextRun) : String :=
  runs.foldr (fun run acc => run.t ++ acc) ""

/-- The text of the exported Original cell: the rich-text runs when any
exist, otherwise the plain original text. -/
def exportCellOriginal (orig clean : String) : String :=
  if (originalRuns orig clean).isEmpty then orig
  else runsText (originalRuns orig clean)

/-- The text of the exported Rewritten cell: the rich-text runs when any
exist, otherwise the plain clean rewritten text. -/
def exportCellRewritten (orig clean : String) : String :=
  if (rewrittenRuns orig clean).isEmpty then clean
  else runsText (rewrittenRuns orig clean)

/-- The header row written by `exportToCSV`. -/
def exportHeaders : List String :=
  ["ID", "Original Caption (Diff)", "Rewritten Caption (Diff)", "Image Path",
   "Status", "Error"]

/-- `exportToCSV` from fileParser.ts at the level of the written sheet's
textual content: per item it diffs the original against
`extractRewrittenText(rawRewritten)` and writes the two rich-text cells
alongside id, image path, status and error. -/
def exportToCSV (recs : List ExportRecord) : Sheet :=
  { headers := exportHeaders
    rows := recs.map (fun it =>
      let orig := jsOrStr (some it.originalCaption) ""
      let clean := extractRewrittenText (some it.rewrittenCaption)
      [it.id, exportCellOriginal orig clean, exportCellRewritten orig clean,
       it.imagePath, it.statusVal, it.errVal]) }

/-- Export a row list with `handleDownload` and re-import the resulting
sheet with `handleExcelUpload`. -/
def roundTrip (data : List CaptionRow) : List ImportedRow :=
  handleExcelUpload (exportToCSV (data.map handleDownloadRecord))

/-! ## API client (services/gemini.ts) -/

/-- The input record passed to `rewriteCaption`. -/
structure RewriteInput where
  text : Option String
  imageData : Option String
deriving DecidableEq, Repr

/-- A network request the client is about to dispatch.  The model follows
the source up to the first network call: a `.ok` result is a dispatched
request, a `.error` result is an exception thrown before any network
activity. -/
inductive NetRequest
  | openAICompat (apiKey url modelName userText systemInstruction : String)
  | geminiImage (apiKey modelName imageData userText systemInstruction : String)
  | geminiText (apiKey modelName userText systemInstruction : String)
deriving DecidableEq, Repr

/-- The error message rejecting image payloads on OpenAI-compatible
providers. -/
def imageRejectMsg (modelName : String) : String :=
  modelName ++ " 目前仅支持纯文本改写 (Excel 模式)。如需处理图片，请切换回 Gemini 模型。"

/-- The user message both text-only paths send. -/
def textUserMsg (t : String) : String :=
  "原始 Caption: \"" ++ t ++ "\"\n\n请严格按照系统指令（图片Caption审核与改写专家）的格式要求进行审核和改写。"

/-- `callOpenAICompatibleApi` from gemini.ts up to its `fetch`: reject image
payloads, reject missing text, then route by model-name substring to the
DeepSeek or Moonshot endpoint, else throw `Unknown model provider`. -/
def callOpenAICompatibleApi (apiKey modelName : String) (input : RewriteInput)
    (systemInstruction : String) : Except String NetRequest :=
  if !jsFalsyStr input.imageData then
    Except.error (imageRejectMsg modelName)
  else if jsFalsyStr input.text then
    Except.error "No text input provided for text-only model."
  else if jsIncludes modelName "deepseek" then
    Except.ok (NetRequest.openAICompat apiKey
      "https://api.deepseek.com/chat/completions"
      modelName (textUserMsg (jsOrStr input.text "")) systemInstruction)
  else if jsIncludes modelName "moonshot" then
    Except.ok (NetRequest.openAICompat apiKey
      "https://api.moonshot.cn/v1/chat/completions"
      modelName (textUserMsg (jsOrStr input.text "")) systemInstruction)
  else
    Except.error "Unknown model provider"

/-- `rewriteCaption` from gemini.ts up to the first network dispatch.
`defaultSystemPrompt` stands for `DEFAULT_SYSTEM_PROMPT` imported from
constants.ts, which is not among the sources; it enters as a parameter.
Routing: a missing API key throws; models whose name lacks `gemini` go to
the OpenAI-compatible path; Gemini requests carry the image when the image
payload is truthy, else the text, else throw `No input provided`. -/
def rewriteCaption (defaultSystemPrompt apiKey modelName : String)
    (input : RewriteInput) (customRules : String) : Except String NetRequest :=
  if apiKey = "" then Except.error "API Key is missing"
  else
    let systemInstruction :=
      if customRules = "" then defaultSystemPrompt
      else defaultSystemPrompt ++ "\n\n附加规则文件内容:\n" ++ customRules
    if !jsIncludes modelName "gemini" then
      callOpenAICompatibleApi apiKey modelName input systemInstruction
    else if !jsFalsyStr input.imageData then
      Except.ok (NetRequest.geminiImage apiKey modelName
        (jsOrStr input.imageData "")
        (if jsFalsyStr input.text then "" else jsOrStr input.text "")
        systemInstruction)
    else if !jsFalsyStr input.text then
      Except.ok (NetRequest.geminiText apiKey modelName
        (textUserMsg (jsOrStr input.text "")) systemInstruction)
    else
      Except.error "No input provided"

/-! ## Batch processing orchestrator (App.tsx `startProcessing`)

The worker pool runs on a single-threaded event loop: each worker's code is
atomic between `await` points.  The embedding is a transition system: a
scheduler trace interleaves, per worker, the synchronous segment that claims
the next row and starts its `rewriteCaption` call (`claim`), and the
continuation that writes the settled result back (`resume`); `setStop` is
the `stopProcessing` click handler setting the shared cancellation flag.
The external API's behaviour is an oracle mapping each claimed slot to the
outcome of its call.  Actions that are not enabled (the worker is not in the
matching phase) leave the state unchanged. -/

/-- A row is included in `itemsToProcess` when its status is `pending` or
`error`. -/
def isEligible (r : CaptionRow) : Bool :=
  r.status == Status.pending || r.status == Status.err

/-- `data.map((item, index) => ({item, index})).filter(...)` with the index
threaded explicitly: the pairs of eligible row snapshot and its position. -/
def itemsToProcessAux : Nat → List CaptionRow → List (CaptionRow × Nat)
  | _, [] => []
  | i, r :: rs =>
    if isEligible r then (r, i) :: itemsToProcessAux (i + 1) rs
    else itemsToProcessAux (i + 1) rs

/-- The work queue built at the start of `startProcessing`. -/
def itemsToProcess (rows : List CaptionRow) : List (CaptionRow × Nat) :=
  itemsToProcessAux 0 rows

/-- The outcome of one `rewriteCaption` call: the resolved
`{rewritten, extractedOriginal}` or the thrown error's message. -/
inductive CallResult
  | ok (rewritten : String) (extractedOriginal : Option String)
  | thrown (message : String)
deriving DecidableEq, Repr

/-- The phase of one logical worker. -/
inductive WorkerState
  | running
  | waiting (slot : Nat)
  | done
deriving DecidableEq, Repr

/-- The mutable state `startProcessing` closes over: the row list, the fixed
work queue, the shared cursor `index`, the worker phases, the cancellation
flag, and the log of claimed slots in claim order (one entry per
`rewriteCaption` invocation). -/
structure BatchState where
  data : List CaptionRow
  items : List (CaptionRow × Nat)
  cursor : Nat
  workers : List WorkerState
  stop : Bool
  callLog : List Nat
deriving DecidableEq, Repr

/-- Apply a function to a list element in place (the
`newData[i] = {...newData[i], ...}` index replacement). -/
def updateAt (l : List CaptionRow) (i : Nat) (f : CaptionRow → CaptionRow) :
    List CaptionRow :=
  match l.get? i with
  | some r => l.set i (f r)
  | none => l

/-- `{...row, status: 'processing', error: undefined}`. -/
def setProcessing (r : CaptionRow) : CaptionRow :=
  { r with status := Status.processing, errMsg := none }

/-- `{...row, status: 'completed', rewritten: result.rewritten,
original: result.extractedOriginal || row.original}`. -/
def setCompleted (rewritten : String) (extractedOriginal : Option String)
    (r : CaptionRow) : CaptionRow :=
  { r with status := Status.completed, rewritten := some rewritten
           original := jsOrStr extractedOriginal r.original }

/-- `{...row, status: 'error', error: err.message}`. -/
def setErrored (message : String) (r : CaptionRow) : CaptionRow :=
  { r with status := Status.err, errMsg := some message }

/-- Write one settled call outcome back into a row. -/
def resolveCall (res : CallResult) (r : CaptionRow) : CaptionRow :=
  match res with
  | CallResult.ok rw exo => setCompleted rw exo r
  | CallResult.thrown m => setErrored m r

/-- The original-row index a slot refers to. -/
def slotIdx (s : BatchState) (slot : Nat) : Nat :=
  match s.items.get? slot with
  | some p => p.2
  | none => 0

/-- A scheduler action. -/
inductive BAction
  | claim (w : Nat)
  | resume (w : Nat)
  | setStop
deriving DecidableEq, Repr

/-- One transition.  `claim w`: worker `w` runs its loop head; if the cursor
is past the queue it returns; if the stop flag is set it breaks; otherwise it
claims slot `cursor`, marks the row processing, and starts the call (the
segment up to `await rewriteCaption`, which runs atomically on the event
loop).  `resume w`: the call for worker `w`'s slot settles with the oracle's
outcome and the continuation writes the terminal status back, returning to
the loop head.  `setStop`: `stopProcessing` sets the shared flag. -/
def step (oracle : Nat → CallResult) (s : BatchState) : BAction → BatchState
  | BAction.claim w =>
    match s.workers.get? w with
    | some WorkerState.running =>
      if s.cursor < s.items.length then
        if s.stop then { s with workers := s.workers.set w WorkerState.done }
        else
          { s with
            cursor := s.cursor + 1
            callLog := s.callLog ++ [s.cursor]
            data := updateAt s.data (slotIdx s s.cursor) setProcessing
            workers := s.workers.set w (WorkerState.waiting s.cursor) }
      else { s with workers := s.workers.set w WorkerState.done }
    | _ => s
  | BAction.resume w =>
    match s.workers.get? w with
    | some (WorkerState.waiting slot) =>
      { s with
        data := updateAt s.data (slotIdx s slot) (resolveCall (oracle slot))
        workers := s.workers.set w WorkerState.running }
    | _ => s
  | BAction.setStop => { s with stop := true }

/-- The state at the start of a run: `stopProcessingRef.current = false`, the
queue is computed, the cursor is zero, and `CONCURRENCY` workers start. -/
def initState (rows : List CaptionRow) (concurrency : Nat) : BatchState :=
  { data := rows
    items := itemsToProcess rows
    cursor := 0
    workers := List.replicate concurrency WorkerState.running
    stop := false
    callLog := [] }

/-- Run a scheduler trace. -/
def run (oracle : Nat → CallResult) (s : BatchState) (trace : List BAction) :
    BatchState :=
  trace.foldl (step oracle) s

/-- `Promise.all(workers)` has resolved: every worker has returned. -/
def allDone (s : BatchState) : Bool :=
  s.workers.all (fun w => w == WorkerState.done)

/-- The run invariant: the queue is fixed, the row list keeps its length,
the call log records exactly the claimed slots in cursor order, waiting
workers hold distinct claimed slots, and each queue slot's row is untouched
/ processing / resolved according to its phase; rows outside the queue are
never written, and with the stop flag clear a returned worker implies the
queue was exhausted. -/
structure BatchInv (rows : List CaptionRow) (oracle : Nat → CallResult)
    (k : Nat) (s : BatchState) : Prop where
  items_eq : s.items = itemsToProcess rows
  data_len : s.data.length = rows.length
  workers_len : s.workers.length = k
  cursor_le : s.cursor ≤ (itemsToProcess rows).length
  callLog_eq : s.callLog = List.range s.cursor
  waiting_lt : ∀ w j, s.workers.get? w = some (WorkerState.waiting j) →
    j < s.cursor
  waiting_inj : ∀ w1 w2 j, s.workers.get? w1 = some (WorkerState.waiting j) →
    s.workers.get? w2 = some (WorkerState.waiting j) → w1 = w2
  unclaimed : ∀ j p, s.cursor ≤ j → (itemsToProcess rows).get? j = some p →
    s.data.get? p.2 = some p.1
  claimed_waiting : ∀ j p, j < s.cursor →
    (itemsToProcess rows).get? j = some p →
    (∃ w, s.workers.get? w = some (WorkerState.waiting j)) →
    s.data.get? p.2 = some (setProcessing p.1)
  claimed_resolved : ∀ j p, j < s.cursor →
    (itemsToProcess rows).get? j = some p →
    (∀ w, s.workers.get? w ≠ some (WorkerState.waiting j)) →
    s.data.get? p.2 = some (resolveCall (oracle j) (setProcessing p.1))
  untouched : ∀ i r, rows.get? i = some r → isEligible r = false →
    s.data.get? i = some r
  done_cursor : s.stop = false →
    ∀ w, s.workers.get? w = some WorkerState.done →
    s.cursor = (itemsToProcess rows).length

/-- Concatenated characters of the parts of an edit script selected by an
operation predicate (proof device relating coalesced parts to raw
scripts). -/
def concatOps (q : DOp → Bool) (ps : List (String × DOp)) : List Char :=
  ps.foldr (fun p acc => if q p.2 then p.1.data ++ acc else acc) []

/-! ## Concrete fixtures used by witnesses and counterexamples -/

/-- A simple save request. -/
def saveReq0 : SaveReq :=
  { freshId := "s", now := 0, sessionName := "n", rows := [],
    stats := { total := 0, completed := 0, failed := 0 } }

/-- A pending row carrying an image payload. -/
def rowWithImage : CaptionRow :=
  { id := "r", original := "o", rewritten := none, status := Status.pending,
    imagePath := some "p.png", imageData := some "DATAURL", errMsg := none }

/-- A call oracle that always succeeds with a fixed rewrite. -/
def oracleOk : Nat → CallResult :=
  fun _ => CallResult.ok "rw" none

/-- A pending row. -/
def rowPending : CaptionRow :=
  { id := "r1", original := "a", rewritten := none, status := Status.pending,
    imagePath := none, imageData := none, errMsg := none }

/-- A row stuck in `processing` status. -/
def rowProcessing : CaptionRow :=
  { id := "r2", original := "a", rewritten := none,
    status := Status.processing, imagePath := none, imageData := none,
    errMsg := none }

/-- A row in `error` status (eligible for re-runs). -/
def rowErrored : CaptionRow :=
  { id := "r3", original := "a", rewritten := none, status := Status.err,
    imagePath := none, imageData := none, errMsg := some "boom" }

/-- A completed row. -/
def rowDone : CaptionRow :=
  { id := "r4", original := "a", rewritten := some "b",
    status := Status.completed, imagePath := none, imageData := none,
    errMsg := none }

/-- A scheduler trace completing a one-row batch: worker 0 claims and
resolves the row, then all workers observe the empty queue and return. -/
def batchOkTrace : List BAction :=
  [BAction.claim 0, BAction.resume 0, BAction.claim 0, BAction.claim 1,
   BAction.claim 2]

/-- The completed run of `batchOkTrace` over one pending row. -/
def batchOkState : BatchState :=
  run oracleOk (initState [rowPending] 3) batchOkTrace

/-- Prefix of a stopped run: worker 0 dispatches the only row. -/
def stopOkT1 : List BAction := [BAction.claim 0]

/-- Suffix of a stopped run: the dispatched call resolves after the stop and
every worker returns. -/
def stopOkT2 : List BAction :=
  [BAction.resume 0, BAction.claim 0, BAction.claim 1, BAction.claim 2]

/-- A completed batch run over a list whose only row starts in `processing`
status. -/
def batchCexState : BatchState :=
  run oracleOk (initState [rowProcessing] 3)
    [BAction.claim 0, BAction.claim 1, BAction.claim 2]

/-- A batch run over one `error` row stopped before any claim. -/
def stopCexState : BatchState :=
  run oracleOk (initState [rowErrored] 3)
    [BAction.setStop, BAction.claim 0, BAction.claim 1, BAction.claim 2]

/-- A completed row with a rewritten caption, as a round-trip input. -/
def rowCompleted : CaptionRow :=
  { id := "id1", original := "a", rewritten := some "b",
    status := Status.completed, imagePath := some "p", imageData := none,
    errMsg := none }

/-- The row the importer produces from an exported row, per the amended
round-trip statement: `original` and `imagePath` survive, `rewritten` and
`status` are reset. -/
def reimported (r : CaptionRow) : ImportedRow :=
  { original := r.original, rewritten := none, status := Status.pending,
    imagePath := r.imagePath }

/-- The counterexample sheet for the caption-column claim: the second data
row has a blank caption cell but a non-blank second column. -/
def sheetCex : Sheet :=
  { headers := ["caption", "other"], rows := [["a", "x"], ["", "y"]] }

/-- A well-behaved sheet: every caption cell is non-blank or its row is
entirely blank. -/
def sheetOk : Sheet :=
  { headers := ["caption", "img"], rows := [["a", "p"], ["  ", "q"], ["b", ""]] }

/-! # Theorems -/

/-! ### Local-storage history: capping (C5) and image stripping (C6) -/

/-- `applySave` literally prepends the freshly built session and truncates
to 20. -/
theorem applySave_eq (st : List HistorySession) (q : SaveReq) :
    applySave st q = (mkSession q :: st).take 20 := rfl

/-- Truncating before appending does not change a 20-truncated result. -/
theorem take_append_take (A B : List HistorySession) :
    (A ++ B.take 20).take 20 = (A ++ B).take 20 := by
  rw [List.take_append_eq_append_take, List.take_append_eq_append_take,
    List.take_take]
  congr 1
  exact congrArg (fun n => B.take n) (inf_eq_left.mpr (Nat.sub_le _ _))

/-- A non-empty sequence of saves leaves the 20 most recent sessions (plus
whatever older content still fits), most-recent-first. -/
theorem foldl_applySave (qs : List SaveReq) (init : List HistorySession)
    (h : qs ≠ []) :
    qs.foldl applySave init = ((qs.map mkSession).reverse ++ init).take 20 := by
  induction qs generalizing init with
  | nil => cases h rfl
  | cons q qs ih =>
    cases qs with
    | nil => simp [applySave_eq]
    | cons q2 qs2 =>
      rw [List.foldl_cons, ih (applySave init q) (by simp), applySave_eq,
        take_append_take]
      congr 1
      simp

/-- C5: saving prepends the new session and truncates the stored list to at
most 20 entries; after more than 20 saves exactly the 20 most recently saved
sessions remain, most-recent-first. -/
theorem saveSession_keeps_twenty (stored : List HistorySession)
    (qs : List SaveReq) (h : 20 < qs.length) :
    (∀ st q, (applySave st q).head? = some (mkSession q) ∧
       (applySave st q).tail = st.take 19 ∧ (applySave st q).length ≤ 20) ∧
    qs.foldl applySave stored = ((qs.map mkSession).reverse).take 20 := by
  constructor
  · intro st q
    rw [applySave_eq]
    refine ⟨by simp, by simp, by simpa using List.length_take_le 20 _⟩
  · rw [foldl_applySave qs stored (by intro hq; rw [hq] at h; simp at h),
      List.take_append_of_le_length (by simpa using Nat.le_of_lt h)]

/-- Witness for C5 at 21 concrete saves over an empty store. -/
theorem saveSession_keeps_twenty_witness :
    (List.replicate 21 saveReq0).foldl applySave [] =
      List.replicate 20 (mkSession saveReq0) := by
  rw [(saveSession_keeps_twenty [] (List.replicate 21 saveReq0) (by simp)).2]
  rfl

/-- C6: the session built by `saveSession` stores the row list with every
`imageData` removed and every other field unchanged.  The embedding of the
spread copy (`{...row, imageData: undefined}`) is a pure record update on a
fresh list, so the caller's list is not mutated by construction. -/
theorem saveSession_strips_images (freshId : String) (now : Nat) (nm : String)
    (data : List CaptionRow) (stats : ProcessingStats)
    (stored : List HistorySession) :
    ((saveSession freshId now nm data stats stored).1).data.length =
      data.length ∧
    ∀ i r, data.get? i = some r →
      ∃ r2, ((saveSession freshId now nm data stats stored).1).data.get? i =
          some r2 ∧
        r2.imageData = none ∧ r2.id = r.id ∧ r2.original = r.original ∧
        r2.rewritten = r.rewritten ∧ r2.status = r.status ∧
        r2.imagePath = r.imagePath ∧ r2.errMsg = r.errMsg := by
  constructor
  · simp [saveSession, stripImageData]
  · intro i r hr
    refine ⟨{ r with imageData := none }, ?_, rfl, rfl, rfl, rfl, rfl, rfl, rfl⟩
    have hd : (saveSession freshId now nm data stats stored).1.data =
        stripImageData data := rfl
    rw [hd, stripImageData, List.get?_map, hr]
    rfl

/-- Witness for C6 on a concrete row with an image payload. -/
theorem saveSession_strips_images_witness :
    ∃ r2,
      ((saveSession "s" 0 "n" [rowWithImage]
          { total := 1, completed := 0, failed := 0 } []).1).data.get? 0 =
        some r2 ∧
      r2.imageData = none ∧ r2.id = rowWithImage.id ∧
      r2.original = rowWithImage.original ∧
      r2.rewritten = rowWithImage.rewritten ∧
      r2.status = rowWithImage.status ∧
      r2.imagePath = rowWithImage.imagePath ∧
      r2.errMsg = rowWithImage.errMsg :=
  (saveSession_strips_images "s" 0 "n" [rowWithImage]
    { total := 1, completed := 0, failed := 0 } []).2 0 rowWithImage rfl

/-! ### Local-storage history: `getSessions` totality (C10) -/

/-- C10: `getSessions` is a total function of the store contents (it is a
Lean function, hence never throws): an absent key yields the empty list, and
a present but unparseable value also yields the empty list through the
`catch` branch instead of propagating the parse error. -/
theorem getSessions_total_fallbacks (raw : String) (h : jsonParse raw = none) :
    getSessions none = Json.arr [] ∧ getSessions (some raw) = Json.arr [] := by
  refine ⟨rfl, ?_⟩
  unfold getSessions
  by_cases he : raw = "" <;> simp [he, h]

/-- Witness for C10 on a concrete malformed store value. -/
theorem getSessions_total_fallbacks_witness :
    getSessions none = Json.arr [] ∧
    getSessions (some "[broken") = Json.arr [] :=
  getSessions_total_fallbacks "[broken" rfl

/-! ### Provider routing: image rejection (C7) -/

/-- C7 counterexample: with an empty API key the call throws
`API Key is missing`, not the image-rejection message; and with an
empty-string image payload (which is set but falsy) no error is thrown at
all — a network request to DeepSeek is dispatched. -/
theorem rewriteCaption_image_counterexample :
    rewriteCaption "SYS" "" "deepseek-chat"
        { text := some "t", imageData := some "img" } "" =
      Except.error "API Key is missing" ∧
    "API Key is missing" ≠ imageRejectMsg "deepseek-chat" ∧
    rewriteCaption "SYS" "key" "deepseek-chat"
        { text := some "t", imageData := some "" } "" =
      Except.ok (NetRequest.openAICompat "key"
        "https://api.deepseek.com/chat/completions" "deepseek-chat"
        (textUserMsg "t") "SYS") :=
  ⟨rfl, by decide, rfl⟩

/-- C7 amended: provided the API key is non-empty and the image payload is a
non-empty string, every model name without `gemini` rejects the image with
the descriptive provider error before any network request (the `.error`
result is produced strictly before the model's `fetch`). -/
theorem rewriteCaption_rejects_image (sys apiKey modelName rules : String)
    (input : RewriteInput) (hk : apiKey ≠ "")
    (hm : jsIncludes modelName "gemini" = false)
    (hi : jsFalsyStr input.imageData = false) :
    rewriteCaption sys apiKey modelName input rules =
      Except.error (imageRejectMsg modelName) := by
  unfold rewriteCaption callOpenAICompatibleApi
  simp [hk, hm, hi]

/-- Witness for the amended C7 at a concrete Moonshot model. -/
theorem rewriteCaption_rejects_image_witness :
    rewriteCaption "SYS" "key" "moonshot-v1"
        { text := none, imageData := some "d" } "" =
      Except.error (imageRejectMsg "moonshot-v1") :=
  rewriteCaption_rejects_image "SYS" "key" "moonshot-v1" ""
    { text := none, imageData := some "d" } (by decide) (by decide) (by decide)

/-! ### Character diff: structural lemmas -/

/-- A pure-deletion script keeps exactly the deleted characters under the
non-added filter. -/
theorem filter_map_del_nonAdded (l : List Char) :
    (((l.map (fun c => (c, DOp.del))).filter (fun p => !opAdded p.2)).map
      Prod.fst) = l := by
  induction l with
  | nil => rfl
  | cons c l ih => simpa [opAdded] using ih

/-- A pure-insertion script keeps nothing under the non-added filter. -/
theorem filter_map_ins_nonAdded (l : List Char) :
    (((l.map (fun c => (c, DOp.ins))).filter (fun p => !opAdded p.2)).map
      Prod.fst) = [] := by
  induction l with
  | nil => rfl
  | cons c l ih => simpa [opAdded] using ih

/-- A pure-insertion script keeps exactly the inserted characters under the
non-removed filter. -/
theorem filter_map_ins_nonRemoved (l : List Char) :
    (((l.map (fun c => (c, DOp.ins))).filter (fun p => !opRemoved p.2)).map
      Prod.fst) = l := by
  induction l with
  | nil => rfl
  | cons c l ih => simpa [opRemoved] using ih

/-- A pure-deletion script keeps nothing under the non-removed filter. -/
theorem filter_map_del_nonRemoved (l : List Char) :
    (((l.map (fun c => (c, DOp.del))).filter (fun p => !opRemoved p.2)).map
      Prod.fst) = [] := by
  induction l with
  | nil => rfl
  | cons c l ih => simpa [opRemoved] using ih

/-- The non-added characters of an edit script are the old string. -/
theorem ldiffF_nonAdded (fuel : Nat) :
    ∀ xs ys : List Char, xs.length + ys.length ≤ fuel →
      ((ldiffF fuel xs ys).filter (fun p => !opAdded p.2)).map Prod.fst = xs := by
  induction fuel with
  | zero =>
    intro xs ys h
    cases xs with
    | nil => simpa [ldiffF] using filter_map_ins_nonAdded ys
    | cons x xs => simp at h
  | succ fuel ih =>
    intro xs ys h
    cases xs with
    | nil => simpa [ldiffF] using filter_map_ins_nonAdded ys
    | cons x xs =>
      cases ys with
      | nil =>
        simpa [ldiffF, opAdded] using filter_map_del_nonAdded xs
      | cons y ys =>
        simp only [ldiffF]
        by_cases hxy : x = y
        · simp only [hxy, if_pos rfl]
          have := ih xs ys (by simp at h; omega)
          simpa [opAdded] using this
        · rw [if_neg hxy]
          by_cases hl : lcsLen (x :: xs) ys ≤ lcsLen xs (y :: ys)
          · rw [if_pos hl]
            have := ih xs (y :: ys) (by simp at h ⊢; omega)
            simpa [opAdded] using this
          · rw [if_neg hl]
            have := ih (x :: xs) ys (by simp at h ⊢; omega)
            simpa [opAdded] using this

/-- The non-removed characters of an edit script are the new string. -/
theorem ldiffF_nonRemoved (fuel : Nat) :
    ∀ xs ys : List Char, xs.length + ys.length ≤ fuel →
      ((ldiffF fuel xs ys).filter (fun p => !opRemoved p.2)).map Prod.fst = ys := by
  induction fuel with
  | zero =>
    intro xs ys h
    cases xs with
    | nil => simpa [ldiffF] using filter_map_ins_nonRemoved ys
    | cons x xs => simp at h
  | succ fuel ih =>
    intro xs ys h
    cases xs with
    | nil => simpa [ldiffF] using filter_map_ins_nonRemoved ys
    | cons x xs =>
      cases ys with
      | nil =>
        simpa [ldiffF, opRemoved] using filter_map_del_nonRemoved xs
      | cons y ys =>
        simp only [ldiffF]
        by_cases hxy : x = y
        · simp only [hxy, if_pos rfl]
          have := ih xs ys (by simp at h; omega)
          simpa [opRemoved] using this
        · rw [if_neg hxy]
          by_cases hl : lcsLen (x :: xs) ys ≤ lcsLen xs (y :: ys)
          · rw [if_pos hl]
            have := ih xs (y :: ys) (by simp at h ⊢; omega)
            simpa [opRemoved] using this
          · rw [if_neg hl]
            have := ih (x :: xs) ys (by simp at h ⊢; omega)
            simpa [opRemoved] using this

/-- Coalescing never produces parts out of thin air. -/
theorem coalesce_eq_nil_iff (l : List (Char × DOp)) :
    coalesce l = [] ↔ l = [] := by
  cases l with
  | nil => simp [coalesce]
  | cons p l =>
    constructor
    · intro h
      exfalso
      obtain ⟨c, o⟩ := p
      simp only [coalesce] at h
      cases hcl : coalesce l with
      | nil => rw [hcl] at h; simp at h
      | cons q tail =>
        rw [hcl] at h
        by_cases ho : o = q.2 <;> simp [ho] at h
    · intro h
      cases h

/-- Concatenating the selected coalesced parts gives exactly the selected
raw characters. -/
theorem coalesce_concat (q : DOp → Bool) (l : List (Char × DOp)) :
    concatOps q (coalesce l) = (l.filter (fun p => q p.2)).map Prod.fst := by
  induction l with
  | nil => rfl
  | cons p l ih =>
    obtain ⟨c, o⟩ := p
    simp only [coalesce]
    cases hcl : coalesce l with
    | nil =>
      have hl : l = [] := (coalesce_eq_nil_iff l).mp hcl
      subst hl
      by_cases ho : q o <;> simp [concatOps, ho]
    | cons s2 tail =>
      obtain ⟨s, o2⟩ := s2
      rw [hcl] at ih
      show concatOps q
          (if o = o2 then (String.mk (c :: s.data), o) :: tail
           else (String.mk [c], o) :: (s, o2) :: tail) =
        ((((c, o) :: l)).filter (fun p => q p.2)).map Prod.fst
      by_cases ho2 : o = o2
      · rw [if_pos ho2]
        by_cases ho : q o
        · have hq2 : q o2 = true := ho2 ▸ ho
          simp only [concatOps, List.foldr_cons, hq2, if_pos, ho] at ih ⊢
          simp only [List.filter_cons, ho, if_pos, List.map_cons]
          rw [← ih]
          rfl
        · have hq2 : q o2 = false := by
            rw [← ho2]; exact Bool.eq_false_iff.mpr (by simpa using ho)
          simp only [concatOps, List.foldr_cons, hq2, ho] at ih ⊢
          simp only [List.filter_cons, ho]
          simpa using ih
      · rw [if_neg ho2]
        by_cases ho : q o
        · simp only [concatOps, List.foldr_cons, ho, if_pos] at ih ⊢
          simp only [List.filter_cons, ho, if_pos, List.map_cons]
          rw [← ih]
          rfl
        · simp only [concatOps, List.foldr_cons, ho] at ih ⊢
          simp only [List.filter_cons, ho]
          simpa using ih

/-- The Original-column runs spell out exactly the non-added parts. -/
theorem runsText_originalRuns_data (ps : List (String × DOp)) :
    (runsText ((ps.map (fun p =>
        ({ value := p.1, added := opAdded p.2, removed := opRemoved p.2 } :
          DiffPart))).filterMap (fun part =>
      if part.added then none
      else if part.removed then some ({ t := part.value, highlighted := true } : TextRun)
      else some ({ t := part.value, highlighted := false } : TextRun)))).data =
    concatOps (fun o => !opAdded o) ps := by
  induction ps with
  | nil => rfl
  | cons p ps ih =>
    obtain ⟨s, o⟩ := p
    cases o <;>
      simp [runsText, concatOps, opAdded, opRemoved, String.data_append,
        List.filterMap_cons] <;>
      simpa [runsText, concatOps] using ih

/-- The Rewritten-column runs spell out exactly the non-removed parts. -/
theorem runsText_rewrittenRuns_data (ps : List (String × DOp)) :
    (runsText ((ps.map (fun p =>
        ({ value := p.1, added := opAdded p.2, removed := opRemoved p.2 } :
          DiffPart))).filterMap (fun part =>
      if part.removed then none
      else if part.added then some ({ t := part.value, highlighted := true } : TextRun)
      else some ({ t := part.value, highlighted := false } : TextRun)))).data =
    concatOps (fun o => !opRemoved o) ps := by
  induction ps with
  | nil => rfl
  | cons p ps ih =>
    obtain ⟨s, o⟩ := p
    cases o <;>
      simp [runsText, concatOps, opAdded, opRemoved, String.data_append,
        List.filterMap_cons] <;>
      simpa [runsText, concatOps] using ih

/-- The concatenated Original-column run texts reproduce the original
string. -/
theorem runsText_originalRuns (a b : String) :
    runsText (originalRuns a b) = a := by
  apply String.ext
  have h1 := runsText_originalRuns_data (coalesce (ldiff a.data b.data))
  have h2 := coalesce_concat (fun o => !opAdded o) (ldiff a.data b.data)
  have h3 := ldiffF_nonAdded (a.data.length + b.data.length) a.data b.data
    (Nat.le_refl _)
  calc (runsText (originalRuns a b)).data
      = concatOps (fun o => !opAdded o) (coalesce (ldiff a.data b.data)) := h1
    _ = ((ldiff a.data b.data).filter (fun p => !opAdded p.2)).map Prod.fst := h2
    _ = a.data := h3

/-- The concatenated Rewritten-column run texts reproduce the clean
rewritten string. -/
theorem runsText_rewrittenRuns (a b : String) :
    runsText (rewrittenRuns a b) = b := by
  apply String.ext
  have h1 := runsText_rewrittenRuns_data (coalesce (ldiff a.data b.data))
  have h2 := coalesce_concat (fun o => !opRemoved o) (ldiff a.data b.data)
  have h3 := ldiffF_nonRemoved (a.data.length + b.data.length) a.data b.data
    (Nat.le_refl _)
  calc (runsText (rewrittenRuns a b)).data
      = concatOps (fun o => !opRemoved o) (coalesce (ldiff a.data b.data)) := h1
    _ = ((ldiff a.data b.data).filter (fun p => !opRemoved p.2)).map Prod.fst := h2
    _ = b.data := h3

/-- The exported Original cell's text is exactly the original caption. -/
theorem exportCellOriginal_eq (a b : String) : exportCellOriginal a b = a := by
  unfold exportCellOriginal
  split
  · rfl
  · exact runsText_originalRuns a b

/-- The exported Rewritten cell's text is exactly the clean rewritten
caption. -/
theorem exportCellRewritten_eq (a b : String) : exportCellRewritten a b = b := by
  unfold exportCellRewritten
  split
  · rfl
  · exact runsText_rewrittenRuns a b

/-! ### Diff of an empty original (C8) -/

/-- Coalescing a non-empty uniform insertion script yields one part. -/
theorem coalesce_map_ins (c : Char) (cs : List Char) :
    coalesce ((c :: cs).map (fun y => (y, DOp.ins))) =
      [(String.mk (c :: cs), DOp.ins)] := by
  induction cs generalizing c with
  | nil => rfl
  | cons c2 cs ih =>
    show coalesce ((c, DOp.ins) :: (c2 :: cs).map (fun y => (y, DOp.ins))) = _
    rw [coalesce, ih c2]
    rfl

/-- An empty old string turns the whole script into insertions. -/
theorem ldiffF_nil_left (fuel : Nat) (ys : List Char) :
    ldiffF fuel [] ys = ys.map (fun y => (y, DOp.ins)) := by
  cases fuel <;> cases ys <;> rfl

/-- Diffing from the empty string marks the whole new string as one
addition. -/
theorem diffChars_empty_left (s : String) (h : s ≠ "") :
    diffChars "" s = [{ value := s, added := true, removed := false }] := by
  have hcs : ∃ c cs, s.data = c :: cs := by
    cases hs : s.data with
    | nil => exact absurd (String.ext hs) h
    | cons c cs => exact ⟨c, cs, rfl⟩
  obtain ⟨c, cs, hs⟩ := hcs
  have hmk : String.mk (c :: cs) = s := String.ext (by rw [hs])
  unfold diffChars ldiff
  rw [show ("" : String).data = [] from rfl, hs, ldiffF_nil_left,
    coalesce_map_ins]
  simp [opAdded, opRemoved, hmk]

/-- A diff from the empty string never contains a removed part. -/
theorem diffChars_empty_left_no_removed (s : String) :
    ∀ p ∈ diffChars "" s, p.removed = false := by
  intro p hp
  by_cases h : s = ""
  · subst h
    simp [diffChars, ldiff, ldiffF, coalesce] at hp
  · rw [diffChars_empty_left s h] at hp
    simp at hp
    rw [hp]

/-- C8 counterexample: with an empty original and the non-empty rewritten
string `Rewritten Caption: hi`, both the display diff and the export runs
mark only the extracted text `hi` as the addition, not the entire rewritten
string. -/
theorem diff_empty_counterexample :
    extractRewrittenText (some "Rewritten Caption: hi") = "hi" ∧
    DiffView "" "Rewritten Caption: hi" DiffColumn.rewritten =
      [Span.highlighted "hi"] ∧
    rewrittenRuns "" (extractRewrittenText (some "Rewritten Caption: hi")) =
      [{ t := "hi", highlighted := true }] ∧
    "hi" ≠ "Rewritten Caption: hi" :=
  ⟨rfl, rfl, rfl, by decide⟩

/-- C8 amended: for an empty original, the diff used for display and export
is computed against the extracted rewritten text
(`extractRewrittenText`); when that extracted text is non-empty it is marked
in full as a single addition, no removal markers appear in either output,
and the Original column renders nothing. -/
theorem diff_empty_original (rewritten : String)
    (h : extractRewrittenText (some rewritten) ≠ "") :
    diffChars "" (extractRewrittenText (some rewritten)) =
      [{ value := extractRewrittenText (some rewritten), added := true,
         removed := false }] ∧
    DiffView "" rewritten DiffColumn.rewritten =
      [Span.highlighted (extractRewrittenText (some rewritten))] ∧
    DiffView "" rewritten DiffColumn.original = [] ∧
    originalRuns "" (extractRewrittenText (some rewritten)) = [] ∧
    rewrittenRuns "" (extractRewrittenText (some rewritten)) =
      [{ t := extractRewrittenText (some rewritten), highlighted := true }] := by
  have hd := diffChars_empty_left (extractRewrittenText (some rewritten)) h
  refine ⟨hd, ?_, ?_, ?_, ?_⟩
  · unfold DiffView
    rw [hd]
    rfl
  · unfold DiffView
    rw [hd]
    rfl
  · unfold originalRuns
    rw [hd]
    rfl
  · unfold rewrittenRuns
    rw [hd]
    rfl

/-! ### Generic `find?` lemmas used by the import proofs -/

/-- `find?` over a mapped list. -/
theorem find?_map_comp {α β : Type} (f : α → β) (p : β → Bool) (l : List α) :
    (l.map f).find? p = (l.find? (fun a => p (f a))).map f := by
  induction l with
  | nil => rfl
  | cons a l ih => by_cases h : p (f a) <;> simp [List.find?, h, ih]

/-- `find?` over a filtered list. -/
theorem find?_filter_comm {α : Type} (q p : α → Bool) (l : List α) :
    (l.filter q).find? p = l.find? (fun a => q a && p a) := by
  induction l with
  | nil => rfl
  | cons a l ih =>
    by_cases hq : q a
    · by_cases hp : p a <;> simp [List.filter_cons, List.find?, hq, hp, ih]
    · simp [List.filter_cons, List.find?, hq, ih]

/-- Zipping preserves positions. -/
theorem zip_get?_some {α β : Type} :
    ∀ (l1 : List α) (l2 : List β) (i : Nat) (a : α) (b : β),
      l1.get? i = some a → l2.get? i = some b →
      (l1.zip l2).get? i = some (a, b) := by
  intro l1
  induction l1 with
  | nil => intro l2 i a b h; simp at h
  | cons x l1 ih =>
    intro l2 i a b h1 h2
    cases l2 with
    | nil => simp at h2
    | cons y l2 =>
      cases i with
      | zero =>
        simp only [List.get?] at h1 h2
        cases h1; cases h2
        rfl
      | succ i => exact ih l2 i a b h1 h2

/-- Positions recovered from a zipped list. -/
theorem zip_get?_decompose {α β : Type} :
    ∀ (l1 : List α) (l2 : List β) (i : Nat) (a : α) (b : β),
      (l1.zip l2).get? i = some (a, b) →
      l1.get? i = some a ∧ l2.get? i = some b := by
  intro l1
  induction l1 with
  | nil => intro l2 i a b h; simp [List.zip] at h
  | cons x l1 ih =>
    intro l2 i a b h
    cases l2 with
    | nil => simp [List.zip] at h
    | cons y l2 =>
      cases i with
      | zero =>
        simp only [List.zip_cons_cons, List.get?] at h
        cases h
        exact ⟨rfl, rfl⟩
      | succ i => exact ih l2 i a b h

/-- Witness for the amended C8 at a concrete label-free rewritten text. -/
theorem diff_empty_original_witness :
    DiffView "" "hello" DiffColumn.rewritten =
      [Span.highlighted (extractRewrittenText (some "hello"))] :=
  (diff_empty_original "hello" (by decide)).2.1

/-! ### Spreadsheet round trip (C3) -/

/-- Header-predicate evaluations on the exported header row. -/
theorem captionPred_evals :
    captionPred "ID" = false ∧
    captionPred "Original Caption (Diff)" = true ∧
    captionPred "Rewritten Caption (Diff)" = true ∧
    captionPred "Image Path" = false ∧
    captionPred "Status" = false ∧
    captionPred "Error" = false := by decide

/-- Image-predicate evaluations on the exported header row. -/
theorem imagePred_evals :
    imagePred "ID" = false ∧
    imagePred "Original Caption (Diff)" = false ∧
    imagePred "Rewritten Caption (Diff)" = false ∧
    imagePred "Image Path" = true ∧
    imagePred "Status" = false ∧
    imagePred "Error" = false := by decide

/-- Re-importing one exported sheet row: the caption key resolves to the
Original column (whose cell reproduces the original), the image key to the
Image Path column when its cell is non-blank, and the produced row is
pending with no rewritten text. -/
theorem importRecord_exported_row (id orig clean ip st er : String)
    (ho : orig ≠ "") :
    importRecord ((exportHeaders.zip [id, orig, clean, ip, st, er]).filter
        (fun p => p.2 != "")) =
      { original := orig, rewritten := none, status := Status.pending,
        imagePath := if ip = "" then none else some ip } := by
  have hb : (orig != "") = true := by simpa using ho
  have hzip : exportHeaders.zip [id, orig, clean, ip, st, er] =
      [("ID", id), ("Original Caption (Diff)", orig),
       ("Rewritten Caption (Diff)", clean), ("Image Path", ip),
       ("Status", st), ("Error", er)] := rfl
  unfold importRecord lookupVal
  rw [hzip]
  simp only [find?_map_comp, find?_filter_comm]
  by_cases hip : ip = ""
  · subst hip
    simp [List.find?, hb, captionPred_evals.1, captionPred_evals.2.1,
      imagePred_evals.1, imagePred_evals.2.1, imagePred_evals.2.2.1,
      imagePred_evals.2.2.2.1, imagePred_evals.2.2.2.2.1,
      imagePred_evals.2.2.2.2.2]
  · have hbip : (ip != "") = true := by simpa using hip
    simp [List.find?, hb, hbip, hip, captionPred_evals.1, captionPred_evals.2.1,
      imagePred_evals.1, imagePred_evals.2.1, imagePred_evals.2.2.1,
      imagePred_evals.2.2.2.1, imagePred_evals.2.2.2.2.1,
      imagePred_evals.2.2.2.2.2]

/-- `x || ''` on `some s` is `s` itself. -/
theorem jsOrStr_some_empty (s : String) : jsOrStr (some s) "" = s := by
  by_cases h : s = "" <;> simp [jsOrStr, h]

/-- A string with a non-empty trim is non-empty. -/
theorem ne_empty_of_jsTrim_ne (s : String) (h : jsTrim s ≠ "") : s ≠ "" := by
  intro hs
  subst hs
  exact h rfl

/-- Exporting then re-importing an image path is the identity whenever the
path is not the degenerate `some ""`. -/
theorem imagePath_conv (o : Option String) (h : o ≠ some "") :
    (if jsOrStr o "" = "" then none else some (jsOrStr o "")) = o := by
  cases o with
  | none => rfl
  | some p =>
    have hp : p ≠ "" := fun hp => h (by rw [hp])
    simp [jsOrStr, hp]

/-- C3 counterexample: exporting a completed row with a rewritten caption
and re-importing yields a `pending` row with no rewritten text, so `status`
and `rewritten` are not preserved by the round trip. -/
theorem roundTrip_counterexample :
    roundTrip [rowCompleted] = [reimported rowCompleted] ∧
    (reimported rowCompleted).status = Status.pending ∧
    rowCompleted.status = Status.completed ∧
    (reimported rowCompleted).rewritten = none ∧
    rowCompleted.rewritten = some "b" ∧
    Status.pending ≠ Status.completed ∧ (none : Option String) ≠ some "b" :=
  ⟨rfl, rfl, rfl, rfl, rfl, by decide, by decide⟩

/-- The round trip processes rows independently. -/
theorem roundTrip_cons (r : CaptionRow) (rest : List CaptionRow) :
    roundTrip (r :: rest) = roundTrip [r] ++ roundTrip rest := by
  unfold roundTrip handleExcelUpload exportToCSV sheetToJson
  simp only [List.map_cons, List.map_nil, List.filter_cons, List.filter_nil]
  split_ifs <;> simp [List.filter_cons] <;> split_ifs <;> simp

/-- The round trip of one row with a non-blank original and a non-degenerate
image path. -/
theorem roundTrip_single (r : CaptionRow)
    (htr : jsTrim r.original ≠ "") (hip : r.imagePath ≠ some "") :
    roundTrip [r] = [reimported r] := by
  have hro : r.original ≠ "" := ne_empty_of_jsTrim_ne _ htr
  have hb : (r.original != "") = true := by simpa using hro
  have hbt : (jsTrim r.original != "") = true := by simpa using htr
  unfold roundTrip handleExcelUpload exportToCSV sheetToJson
  simp only [List.map_cons, List.map_nil, List.filter_cons, List.filter_nil,
    handleDownloadRecord, jsOrStr_some_empty, exportCellOriginal_eq,
    exportCellRewritten_eq]
  have hne : (((exportHeaders.zip [r.id, r.original,
      extractRewrittenText (some (jsOrStr r.rewritten "")),
      jsOrStr r.imagePath "", statusString r.status,
      jsOrStr r.errMsg ""]).filter (fun p => p.2 != "")).isEmpty) = false := by
    rw [List.isEmpty_eq_false_iff_exists_mem]
    refine ⟨("Original Caption (Diff)", r.original), ?_⟩
    rw [List.mem_filter]
    exact ⟨by simp [exportHeaders], hb⟩
  rw [hne]
  simp only [Bool.not_false, if_pos, List.map_cons, List.map_nil]
  rw [importRecord_exported_row r.id r.original
    (extractRewrittenText (some (jsOrStr r.rewritten "")))
    (jsOrStr r.imagePath "") (statusString r.status) (jsOrStr r.errMsg "") hro]
  simp only [List.filter_cons, List.filter_nil, hb, hbt, Bool.and_self,
    if_pos]
  rw [imagePath_conv r.imagePath hip]
  rfl

/-- C3 amended: for row sets whose originals are non-blank and whose image
paths are never the empty string, the round trip preserves `original` and
`imagePath` exactly, while every re-imported row has `rewritten = none` and
`status = pending` (these two fields are reset, not preserved). -/
theorem roundTrip_preserves (data : List CaptionRow)
    (h1 : ∀ r ∈ data, jsTrim r.original ≠ "")
    (h2 : ∀ r ∈ data, r.imagePath ≠ some "") :
    roundTrip data = data.map reimported := by
  induction data with
  | nil => rfl
  | cons r rest ih =>
    rw [roundTrip_cons, roundTrip_single r (h1 r (List.mem_cons_self r rest))
      (h2 r (List.mem_cons_self r rest)),
      ih (fun x hx => h1 x (List.mem_cons_of_mem r hx))
        (fun x hx => h2 x (List.mem_cons_of_mem r hx))]
    rfl

/-- Witness for the amended C3 on a concrete one-row list. -/
theorem roundTrip_preserves_witness :
    roundTrip [rowWithImage] = [reimported rowWithImage] ∧
    (reimported rowWithImage).original = "o" ∧
    (reimported rowWithImage).imagePath = some "p.png" := by
  refine ⟨?_, rfl, rfl⟩
  rw [roundTrip_preserves [rowWithImage] (by decide) (by decide)]
  rfl

/-! ### Spreadsheet import by caption column (C4) -/

/-- C4 counterexample: the sheet has a `caption` column, and its second data
row has a blank caption cell but a non-blank `other` cell; the import still
produces a row for it, taking `other`'s value as `original` through the
first-key fallback — instead of excluding the row as the claim states. -/
theorem import_caption_counterexample :
    (handleExcelUpload sheetCex).map (fun r => r.original) = ["a", "y"] ∧
    (["a", "y"] : List String) ≠ ["a"] :=
  ⟨rfl, by decide⟩

/-- `handleExcelUpload` processes data rows independently. -/
theorem handleExcelUpload_cons (H : List String) (row : List String)
    (rest : List (List String)) :
    handleExcelUpload { headers := H, rows := row :: rest } =
      handleExcelUpload { headers := H, rows := [row] } ++
        handleExcelUpload { headers := H, rows := rest } := by
  unfold handleExcelUpload sheetToJson
  simp only [List.map_cons, List.map_nil, List.filter_cons, List.filter_nil]
  split_ifs <;> simp [List.filter_cons] <;> split_ifs <;> simp

/-- Importing a single data row whose caption cell is non-blank (under a
unique caption-matching header) produces exactly that cell as `original`,
subject to the whitespace filter. -/
theorem import_one_row (headers row : List String) (c : Nat) (hdr : String)
    (hc : headers.get? c = some hdr)
    (hcap : captionPred hdr = true)
    (huniq : ∀ k ∈ headers, captionPred k = true → k = hdr)
    (hnd : headers.Nodup)
    (hlen : row.length = headers.length)
    (hblank : (row.get? c).getD "" = "" → ∀ cell ∈ row, cell = "") :
    (handleExcelUpload { headers := headers, rows := [row] }).map
        (fun r => r.original) =
      (if jsTrim ((row.get? c).getD "") != "" then [(row.get? c).getD ""]
       else []) := by
  have hcl : c < headers.length := by
    rcases List.get?_eq_some.mp hc with ⟨h, _⟩
    exact h
  by_cases hv : (row.get? c).getD "" = ""
  · rw [hv]
    have hall := hblank hv
    have hrec : (headers.zip row).filter (fun p => p.2 != "") = [] := by
      rw [List.filter_eq_nil]
      intro p hp
      have := (List.mem_zip hp).2
      simp [hall p.2 this]
    unfold handleExcelUpload sheetToJson
    simp [hrec, jsTrim]
  · obtain ⟨w, hw⟩ : ∃ w, row.get? c = some w := by
      cases hrow : row.get? c with
      | none =>
        have hno := List.get?_eq_none.mp hrow
        omega
      | some w => exact ⟨w, rfl⟩
    rw [hw] at hv ⊢
    simp only [Option.getD_some] at hv ⊢
    have hbv : (w != "") = true := by simpa using hv
    have hmemzip : (hdr, w) ∈ headers.zip row :=
      List.get?_mem (zip_get?_some headers row c hdr w hc hw)
    have hmemrec : (hdr, w) ∈
        (headers.zip row).filter (fun p => p.2 != "") :=
      List.mem_filter.mpr ⟨hmemzip, hbv⟩
    obtain ⟨k, hk⟩ : ∃ k,
        (((headers.zip row).filter (fun p => p.2 != "")).map
          Prod.fst).find? captionPred = some k := by
      cases hf : (((headers.zip row).filter (fun p => p.2 != "")).map
          Prod.fst).find? captionPred with
      | none =>
        have hmemk : hdr ∈ ((headers.zip row).filter
            (fun p => p.2 != "")).map Prod.fst :=
          List.mem_map.mpr ⟨(hdr, w), hmemrec, rfl⟩
        have := List.find?_eq_none.mp hf hdr hmemk
        exact absurd hcap (by simpa using this)
      | some k => exact ⟨k, rfl⟩
    have hkcap : captionPred k = true := List.find?_some hk
    have hkheaders : k ∈ headers := by
      rcases List.mem_map.mp (List.mem_of_find?_eq_some hk) with ⟨p, hp, hpk⟩
      subst hpk
      exact (List.mem_zip (List.mem_filter.mp hp).1).1
    have hkhdr : k = hdr := huniq k hkheaders hkcap
    subst hkhdr
    obtain ⟨p, hp⟩ : ∃ p,
        ((headers.zip row).filter (fun p => p.2 != "")).find?
          (fun p => p.1 == k) = some p := by
      cases hf : ((headers.zip row).filter (fun p => p.2 != "")).find?
          (fun p => p.1 == k) with
      | none =>
        have := List.find?_eq_none.mp hf (k, w) hmemrec
        simp at this
      | some p => exact ⟨p, rfl⟩
    have hp1 : p.1 = k := by
      have := List.find?_some hp
      simpa using this
    have hpzip : p ∈ headers.zip row :=
      (List.mem_filter.mp (List.mem_of_find?_eq_some hp)).1
    have hp2 : p.2 = w := by
      rcases List.mem_iff_get?.mp hpzip with ⟨i, hi⟩
      obtain ⟨hih, hir⟩ := zip_get?_decompose headers row i p.1 p.2 hi
      rw [hp1] at hih
      have hci : c = i := List.get?_inj hcl hnd (by rw [hc, hih])
      rw [← hci, hw] at hir
      exact (Option.some_inj.mp hir).symm
    have horig : (importRecord
        ((headers.zip row).filter (fun p => p.2 != ""))).original = w := by
      simp only [importRecord, lookupVal, hk, hp, hp2]
    have hne : (((headers.zip row).filter
        (fun p => p.2 != "")).isEmpty) = false := by
      rw [List.isEmpty_eq_false_iff_exists_mem]
      exact ⟨_, hmemrec⟩
    unfold handleExcelUpload sheetToJson
    simp only [List.map_cons, List.map_nil, List.filter_cons, List.filter_nil,
      hne, Bool.not_false, if_pos]
    by_cases htw : jsTrim w = ""
    · have hbt : (jsTrim w != "") = false := by simpa using htw
      simp [horig, hbt]
    · have hbt : (jsTrim w != "") = true := by simpa using htw
      simp [horig, hbt, hbv]

/-- C4 amended: when the sheet has exactly one header matching the caption
heuristic and every data row either has a non-blank cell in that column or
is entirely blank, importing produces one row per data row whose caption
cell is non-whitespace, in source order, with that cell as `original`;
whitespace-only and blank caption cells are excluded.  (Without the blank-row
proviso the claim fails: a row with a blank caption cell but other non-blank
cells is imported through the first-present-key fallback, see the
counterexample.) -/
theorem import_caption_column (headers : List String)
    (grid : List (List String)) (c : Nat) (hdr : String)
    (hc : headers.get? c = some hdr)
    (hcap : captionPred hdr = true)
    (huniq : ∀ k ∈ headers, captionPred k = true → k = hdr)
    (hnd : headers.Nodup)
    (hlen : ∀ row ∈ grid, row.length = headers.length)
    (hblank : ∀ row ∈ grid, (row.get? c).getD "" = "" →
      ∀ cell ∈ row, cell = "") :
    (handleExcelUpload { headers := headers, rows := grid }).map
        (fun r => r.original) =
      grid.filterMap (fun row =>
        if jsTrim ((row.get? c).getD "") != "" then some ((row.get? c).getD "")
        else none) := by
  induction grid with
  | nil => rfl
  | cons row rest ih =>
    rw [handleExcelUpload_cons, List.map_append,
      import_one_row headers row c hdr hc hcap huniq hnd
        (hlen row (List.mem_cons_self row rest))
        (hblank row (List.mem_cons_self row rest)),
      ih (fun x hx => hlen x (List.mem_cons_of_mem row hx))
        (fun x hx => hblank x (List.mem_cons_of_mem row hx)),
      List.filterMap_cons]
    by_cases h : jsTrim ((row[c]?).getD "") = "" <;> simp [h]

/-- Witness for the amended C4 on a concrete three-row sheet (one
whitespace-only caption cell excluded). -/
theorem import_caption_column_witness :
    (handleExcelUpload sheetOk).map (fun r => r.original) = ["a", "b"] := by
  have h := import_caption_column ["caption", "img"]
    [["a", "p"], ["  ", "q"], ["b", ""]] 0 "caption" rfl (by decide)
    (by decide) (by decide) (by decide) (by decide)
  exact h.trans (by rfl)

/-! ### Batch orchestrator: work-queue lemmas -/

/-- Generic helper: an index below the length is hit. -/
theorem get?_of_lt {α : Type} (l : List α) (j : Nat) (h : j < l.length) :
    ∃ p, l.get? j = some p := by
  cases hg : l.get? j with
  | none =>
    have := List.get?_eq_none.mp hg
    omega
  | some p => exact ⟨p, rfl⟩

/-- Every queue entry records an eligible row at its original index. -/
theorem itemsToProcessAux_mem (rows : List CaptionRow) :
    ∀ (i : Nat) (p : CaptionRow × Nat), p ∈ itemsToProcessAux i rows →
      ∃ k, p.2 = i + k ∧ rows.get? k = some p.1 ∧ isEligible p.1 = true := by
  induction rows with
  | nil =>
    intro i p hp
    simp [itemsToProcessAux] at hp
  | cons r rs ih =>
    intro i p hp
    by_cases he : isEligible r = true
    · rw [itemsToProcessAux, if_pos he] at hp
      rcases List.mem_cons.mp hp with h | h
      · subst h
        exact ⟨0, by omega, rfl, he⟩
      · rcases ih (i + 1) p h with ⟨k, hk1, hk2, hk3⟩
        exact ⟨k + 1, by omega, hk2, hk3⟩
    · rw [itemsToProcessAux, if_neg he] at hp
      rcases ih (i + 1) p hp with ⟨k, hk1, hk2, hk3⟩
      exact ⟨k + 1, by omega, hk2, hk3⟩

/-- Every queue entry of `itemsToProcess` is an eligible row at its
position. -/
theorem itemsToProcess_mem (rows : List CaptionRow) (p : CaptionRow × Nat)
    (hp : p ∈ itemsToProcess rows) :
    rows.get? p.2 = some p.1 ∧ isEligible p.1 = true := by
  rcases itemsToProcessAux_mem rows 0 p hp with ⟨k, hk1, hk2, hk3⟩
  rw [hk1, Nat.zero_add]
  exact ⟨hk2, hk3⟩

/-- Every eligible row appears in the queue at its position. -/
theorem itemsToProcessAux_mem_of_eligible (rows : List CaptionRow) :
    ∀ (i k : Nat) (r : CaptionRow), rows.get? k = some r →
      isEligible r = true → (r, i + k) ∈ itemsToProcessAux i rows := by
  induction rows with
  | nil =>
    intro i k r h
    simp at h
  | cons x rs ih =>
    intro i k r h he
    cases k with
    | zero =>
      simp only [List.get?] at h
      cases h
      rw [itemsToProcessAux, if_pos he]
      exact List.mem_cons_self _ _
    | succ k =>
      have hmem := ih (i + 1) k r h he
      have harith : i + (k + 1) = (i + 1) + k := by omega
      rw [harith]
      by_cases hx : isEligible x = true
      · rw [itemsToProcessAux, if_pos hx]
        exact List.mem_cons_of_mem _ hmem
      · rw [itemsToProcessAux, if_neg hx]
        exact hmem

/-- Queue positions are pairwise distinct. -/
theorem itemsToProcessAux_snd_nodup (rows : List CaptionRow) :
    ∀ i, ((itemsToProcessAux i rows).map Prod.snd).Nodup := by
  induction rows with
  | nil =>
    intro i
    simp [itemsToProcessAux]
  | cons r rs ih =>
    intro i
    by_cases he : isEligible r = true
    · rw [itemsToProcessAux, if_pos he]
      rw [List.map_cons, List.nodup_cons]
      refine ⟨?_, ih (i + 1)⟩
      intro hmem
      rcases List.mem_map.mp hmem with ⟨p, hp, hpi⟩
      rcases itemsToProcessAux_mem rs (i + 1) p hp with ⟨k, hk, _, _⟩
      omega
    · rw [itemsToProcessAux, if_neg he]
      exact ih (i + 1)

/-- The queue holds one entry per eligible row. -/
theorem itemsToProcessAux_length (rows : List CaptionRow) :
    ∀ i, (itemsToProcessAux i rows).length = (rows.filter isEligible).length := by
  induction rows with
  | nil =>
    intro i
    rfl
  | cons r rs ih =>
    intro i
    by_cases he : isEligible r = true
    · rw [itemsToProcessAux, if_pos he, List.filter_cons, if_pos he]
      simp [ih (i + 1)]
    · rw [itemsToProcessAux, if_neg he, List.filter_cons,
        if_neg (by simpa using he)]
      exact ih (i + 1)

/-- Distinct queue slots refer to distinct row positions. -/
theorem items_get?_snd_inj (rows : List CaptionRow) (j1 j2 : Nat)
    (p1 p2 : CaptionRow × Nat)
    (h1 : (itemsToProcess rows).get? j1 = some p1)
    (h2 : (itemsToProcess rows).get? j2 = some p2)
    (heq : p1.2 = p2.2) : j1 = j2 := by
  have hnd : ((itemsToProcess rows).map Prod.snd).Nodup :=
    itemsToProcessAux_snd_nodup rows 0
  have hm1 : ((itemsToProcess rows).map Prod.snd).get? j1 = some p1.2 := by
    rw [List.get?_map, h1]
    rfl
  have hm2 : ((itemsToProcess rows).map Prod.snd).get? j2 = some p2.2 := by
    rw [List.get?_map, h2]
    rfl
  have hj1 : j1 < ((itemsToProcess rows).map Prod.snd).length :=
    (List.get?_eq_some.mp hm1).1
  exact List.get?_inj hj1 hnd (by rw [hm1, hm2, heq])

/-- A non-eligible row's position is outside the queue. -/
theorem not_mem_items_snd (rows : List CaptionRow) (i : Nat) (r : CaptionRow)
    (hr : rows.get? i = some r) (he : isEligible r = false) :
    ∀ p, p ∈ itemsToProcess rows → p.2 ≠ i := by
  intro p hp hpi
  rcases itemsToProcess_mem rows p hp with ⟨hg, hel⟩
  rw [hpi, hr] at hg
  cases hg
  rw [hel] at he
  cases he

/-- Eligibility in terms of statuses. -/
theorem isEligible_status (r : CaptionRow) (h : isEligible r = true) :
    r.status = Status.pending ∨ r.status = Status.err := by
  simp [isEligible] at h
  exact h

/-- Completed rows are not eligible. -/
theorem isEligible_completed (r : CaptionRow) (h : r.status = Status.completed) :
    isEligible r = false := by
  simp [isEligible, h]

/-- Write-backs land in a terminal status. -/
theorem resolveCall_status (res : CallResult) (r : CaptionRow) :
    (resolveCall res r).status = Status.completed ∨
    (resolveCall res r).status = Status.err := by
  cases res with
  | ok rw exo => exact Or.inl rfl
  | thrown m => exact Or.inr rfl

/-! ### Batch orchestrator: `updateAt` lemmas -/

/-- `updateAt` preserves the length. -/
theorem updateAt_length (l : List CaptionRow) (i : Nat)
    (f : CaptionRow → CaptionRow) : (updateAt l i f).length = l.length := by
  unfold updateAt
  cases h : l.get? i <;> simp

/-- `updateAt` replaces the hit element. -/
theorem updateAt_get?_eq (l : List CaptionRow) (i : Nat)
    (f : CaptionRow → CaptionRow) (r : CaptionRow) (h : l.get? i = some r) :
    (updateAt l i f).get? i = some (f r) := by
  unfold updateAt
  rw [h]
  exact List.get?_set_eq_of_lt (f r) (List.get?_eq_some.mp h).1

/-- `updateAt` leaves other positions alone. -/
theorem updateAt_get?_ne (l : List CaptionRow) (i j : Nat)
    (f : CaptionRow → CaptionRow) (h : i ≠ j) :
    (updateAt l i f).get? j = l.get? j := by
  unfold updateAt
  cases hg : l.get? i with
  | none => rfl
  | some r => exact List.get?_set_ne (f r) l h

/-! ### Batch orchestrator: the invariant holds along every run -/

/-- The invariant holds at the start of a run. -/
theorem batchInv_init (rows : List CaptionRow) (oracle : Nat → CallResult)
    (k : Nat) : BatchInv rows oracle k (initState rows k) := by
  refine ⟨rfl, rfl, ?_, Nat.zero_le _, rfl, ?_, ?_, ?_, ?_, ?_, ?_, ?_⟩
  · simp [initState]
  · intro w j h
    have := List.eq_of_mem_replicate (List.get?_mem h)
    cases this
  · intro w1 w2 j h1 h2
    have := List.eq_of_mem_replicate (List.get?_mem h1)
    cases this
  · intro j p _ hp
    exact (itemsToProcess_mem rows p (List.get?_mem hp)).1
  · intro j p hj _ _
    simp [initState] at hj
  · intro j p hj _ _
    simp [initState] at hj
  · intro i r hr _
    exact hr
  · intro _ w hw
    have := List.eq_of_mem_replicate (List.get?_mem hw)
    cases this

/-- `stopProcessing` preserves the invariant. -/
theorem batchInv_setStop (rows : List CaptionRow) (oracle : Nat → CallResult)
    (k : Nat) (s : BatchState) (H : BatchInv rows oracle k s) :
    BatchInv rows oracle k (step oracle s BAction.setStop) := by
  refine ⟨H.items_eq, H.data_len, H.workers_len, H.cursor_le, H.callLog_eq,
    H.waiting_lt, H.waiting_inj, H.unclaimed, H.claimed_waiting,
    H.claimed_resolved, H.untouched, ?_⟩
  intro hstop
  simp [step] at hstop

/-- A write-back step preserves the invariant. -/
theorem batchInv_resume (rows : List CaptionRow) (oracle : Nat → CallResult)
    (k : Nat) (s : BatchState) (w : Nat) (H : BatchInv rows oracle k s) :
    BatchInv rows oracle k (step oracle s (BAction.resume w)) := by
  cases hw : s.workers.get? w with
  | none =>
    have hstep : step oracle s (BAction.resume w) = s := by
      simp only [step]; rw [hw]
    rw [hstep]
    exact H
  | some ws =>
    cases ws with
    | running =>
      have hstep : step oracle s (BAction.resume w) = s := by
        simp only [step]; rw [hw]
      rw [hstep]
      exact H
    | done =>
      have hstep : step oracle s (BAction.resume w) = s := by
        simp only [step]; rw [hw]
      rw [hstep]
      exact H
    | waiting j =>
      have hstep : step oracle s (BAction.resume w) =
          { s with
            data := updateAt s.data (slotIdx s j) (resolveCall (oracle j))
            workers := s.workers.set w WorkerState.running } := by
        simp only [step]
        rw [hw]
      rw [hstep]
      have hjc : j < s.cursor := H.waiting_lt w j hw
      obtain ⟨p, hpj⟩ : ∃ p, (itemsToProcess rows).get? j = some p :=
        get?_of_lt _ j (lt_of_lt_of_le hjc H.cursor_le)
      have hslot : slotIdx s j = p.2 := by
        unfold slotIdx
        rw [H.items_eq, hpj]
      have hdataj : s.data.get? p.2 = some (setProcessing p.1) :=
        H.claimed_waiting j p hjc hpj ⟨w, hw⟩
      rw [hslot]
      refine ⟨H.items_eq, ?_, ?_, H.cursor_le, H.callLog_eq, ?_, ?_, ?_, ?_,
        ?_, ?_, ?_⟩
      · rw [show ({ s with
            data := updateAt s.data p.2 (resolveCall (oracle j))
            workers := s.workers.set w WorkerState.running } :
              BatchState).data = updateAt s.data p.2 (resolveCall (oracle j))
          from rfl, updateAt_length]
        exact H.data_len
      · rw [show ({ s with
            data := updateAt s.data p.2 (resolveCall (oracle j))
            workers := s.workers.set w WorkerState.running } :
              BatchState).workers = s.workers.set w WorkerState.running
          from rfl, List.length_set]
        exact H.workers_len
      · intro w2 j2 h2
        rw [List.get?_set] at h2
        by_cases hww : w = w2
        · rw [if_pos hww] at h2
          cases hg : s.workers.get? w2 with
          | none => rw [hg] at h2; simp at h2
          | some x => rw [hg] at h2; simp at h2
        · rw [if_neg hww] at h2
          exact H.waiting_lt w2 j2 h2
      · intro w1 w2 j2 h1 h2
        rw [List.get?_set] at h1 h2
        by_cases h1w : w = w1
        · rw [if_pos h1w] at h1
          cases hg : s.workers.get? w1 with
          | none => rw [hg] at h1; simp at h1
          | some x => rw [hg] at h1; simp at h1
        · rw [if_neg h1w] at h1
          by_cases h2w : w = w2
          · rw [if_pos h2w] at h2
            cases hg : s.workers.get? w2 with
            | none => rw [hg] at h2; simp at h2
            | some x => rw [hg] at h2; simp at h2
          · rw [if_neg h2w] at h2
            exact H.waiting_inj w1 w2 j2 h1 h2
      · intro j2 p2 hj2 hp2
        have hj2c : s.cursor ≤ j2 := hj2
        have hne : j2 ≠ j := by omega
        have hsne : p.2 ≠ p2.2 := fun hc =>
          hne (items_get?_snd_inj rows j2 j p2 p hp2 hpj hc.symm)
        rw [show ({ s with
            data := updateAt s.data p.2 (resolveCall (oracle j))
            workers := s.workers.set w WorkerState.running } :
              BatchState).data = updateAt s.data p.2 (resolveCall (oracle j))
          from rfl, updateAt_get?_ne _ _ _ _ hsne]
        exact H.unclaimed j2 p2 hj2 hp2
      · intro j2 p2 hj2 hp2 hex
        obtain ⟨w2, hw2⟩ := hex
        rw [List.get?_set] at hw2
        by_cases hww : w = w2
        · rw [if_pos hww] at hw2
          cases hg : s.workers.get? w2 with
          | none => rw [hg] at hw2; simp at hw2
          | some x => rw [hg] at hw2; simp at hw2
        · rw [if_neg hww] at hw2
          have hne : j2 ≠ j := by
            intro hc
            subst hc
            exact hww (H.waiting_inj w w2 j2 hw hw2)
          have hsne : p.2 ≠ p2.2 := fun hc =>
            hne (items_get?_snd_inj rows j2 j p2 p hp2 hpj hc.symm)
          rw [show ({ s with
              data := updateAt s.data p.2 (resolveCall (oracle j))
              workers := s.workers.set w WorkerState.running } :
                BatchState).data = updateAt s.data p.2 (resolveCall (oracle j))
            from rfl, updateAt_get?_ne _ _ _ _ hsne]
          exact H.claimed_waiting j2 p2 hj2 hp2 ⟨w2, hw2⟩
      · intro j2 p2 hj2 hp2 hnone
        by_cases hjj : j2 = j
        · subst hjj
          have hpp : p2 = p := by
            rw [hpj] at hp2
            exact (Option.some_inj.mp hp2).symm
          subst hpp
          exact updateAt_get?_eq _ _ _ _ hdataj
        · have hold : ∀ w3,
              s.workers.get? w3 ≠ some (WorkerState.waiting j2) := by
            intro w3 hw3
            by_cases hww : w = w3
            · rw [← hww, hw] at hw3
              simp at hw3
              exact hjj hw3.symm
            · exact hnone w3 (by rw [List.get?_set, if_neg hww]; exact hw3)
          have hsne : p.2 ≠ p2.2 := fun hc =>
            hjj (items_get?_snd_inj rows j2 j p2 p hp2 hpj hc.symm)
          rw [show ({ s with
              data := updateAt s.data p.2 (resolveCall (oracle j))
              workers := s.workers.set w WorkerState.running } :
                BatchState).data = updateAt s.data p.2 (resolveCall (oracle j))
            from rfl, updateAt_get?_ne _ _ _ _ hsne]
          exact H.claimed_resolved j2 p2 hj2 hp2 hold
      · intro i r hr he
        have hi : p.2 ≠ i := not_mem_items_snd rows i r hr he p
          (List.get?_mem hpj)
        rw [show ({ s with
            data := updateAt s.data p.2 (resolveCall (oracle j))
            workers := s.workers.set w WorkerState.running } :
              BatchState).data = updateAt s.data p.2 (resolveCall (oracle j))
          from rfl, updateAt_get?_ne _ _ _ _ hi]
        exact H.untouched i r hr he
      · intro hstop w2 hw2
        rw [List.get?_set] at hw2
        by_cases hww : w = w2
        · rw [if_pos hww] at hw2
          cases hg : s.workers.get? w2 with
          | none => rw [hg] at hw2; simp at hw2
          | some x => rw [hg] at hw2; simp at hw2
        · rw [if_neg hww] at hw2
          exact H.done_cursor hstop w2 hw2

/-- A claim step preserves the invariant. -/
theorem batchInv_claim (rows : List CaptionRow) (oracle : Nat → CallResult)
    (k : Nat) (s : BatchState) (w : Nat) (H : BatchInv rows oracle k s) :
    BatchInv rows oracle k (step oracle s (BAction.claim w)) := by
  cases hw : s.workers.get? w with
  | none =>
    have hstep : step oracle s (BAction.claim w) = s := by
      simp only [step]; rw [hw]
    rw [hstep]
    exact H
  | some ws =>
    cases ws with
    | waiting j =>
      have hstep : step oracle s (BAction.claim w) = s := by
        simp only [step]; rw [hw]
      rw [hstep]
      exact H
    | done =>
      have hstep : step oracle s (BAction.claim w) = s := by
        simp only [step]; rw [hw]
      rw [hstep]
      exact H
    | running =>
      by_cases hcur : s.cursor < s.items.length
      · by_cases hstop : s.stop = true
        · have hstep : step oracle s (BAction.claim w) =
              { s with workers := s.workers.set w WorkerState.done } := by
            simp only [step]
            rw [hw, if_pos hcur, if_pos hstop]
          rw [hstep]
          refine ⟨H.items_eq, H.data_len, ?_, H.cursor_le, H.callLog_eq, ?_,
            ?_, H.unclaimed, ?_, ?_, H.untouched, ?_⟩
          · rw [show ({ s with workers := s.workers.set w WorkerState.done } :
                BatchState).workers = s.workers.set w WorkerState.done
              from rfl, List.length_set]
            exact H.workers_len
          · intro w2 j2 h2
            rw [List.get?_set] at h2
            by_cases hww : w = w2
            · rw [if_pos hww] at h2
              cases hg : s.workers.get? w2 with
              | none => rw [hg] at h2; simp at h2
              | some x => rw [hg] at h2; simp at h2
            · rw [if_neg hww] at h2
              exact H.waiting_lt w2 j2 h2
          · intro w1 w2 j2 h1 h2
            rw [List.get?_set] at h1 h2
            by_cases h1w : w = w1
            · rw [if_pos h1w] at h1
              cases hg : s.workers.get? w1 with
              | none => rw [hg] at h1; simp at h1
              | some x => rw [hg] at h1; simp at h1
            · rw [if_neg h1w] at h1
              by_cases h2w : w = w2
              · rw [if_pos h2w] at h2
                cases hg : s.workers.get? w2 with
                | none => rw [hg] at h2; simp at h2
                | some x => rw [hg] at h2; simp at h2
              · rw [if_neg h2w] at h2
                exact H.waiting_inj w1 w2 j2 h1 h2
          · intro j2 p2 hj2 hp2 hex
            obtain ⟨w2, hw2⟩ := hex
            rw [List.get?_set] at hw2
            by_cases hww : w = w2
            · rw [if_pos hww] at hw2
              cases hg : s.workers.get? w2 with
              | none => rw [hg] at hw2; simp at hw2
              | some x => rw [hg] at hw2; simp at hw2
            · rw [if_neg hww] at hw2
              exact H.claimed_waiting j2 p2 hj2 hp2 ⟨w2, hw2⟩
          · intro j2 p2 hj2 hp2 hnone
            have hold : ∀ w3,
                s.workers.get? w3 ≠ some (WorkerState.waiting j2) := by
              intro w3 hw3
              by_cases hww : w = w3
              · rw [← hww, hw] at hw3
                simp at hw3
              · exact hnone w3
                  (by rw [List.get?_set, if_neg hww]; exact hw3)
            exact H.claimed_resolved j2 p2 hj2 hp2 hold
          · intro hstop2
            exfalso
            have hsf : s.stop = false := hstop2
            rw [hstop] at hsf
            cases hsf
        · have hstopf : s.stop = false := by
            cases hsb : s.stop with
            | false => rfl
            | true => exact absurd hsb hstop
          have hcur2 : s.cursor < (itemsToProcess rows).length := by
            rw [← H.items_eq]
            exact hcur
          obtain ⟨p, hpj⟩ := get?_of_lt (itemsToProcess rows) s.cursor hcur2
          have hpjs : s.items.get? s.cursor = some p := by
            rw [H.items_eq]
            exact hpj
          have hslot : slotIdx s s.cursor = p.2 := by
            unfold slotIdx
            rw [hpjs]
          have hdatac : s.data.get? p.2 = some p.1 :=
            H.unclaimed s.cursor p (Nat.le_refl _) hpj
          have hstep : step oracle s (BAction.claim w) = { s with
              cursor := s.cursor + 1
              callLog := s.callLog ++ [s.cursor]
              data := updateAt s.data (slotIdx s s.cursor) setProcessing
              workers := s.workers.set w (WorkerState.waiting s.cursor) } := by
            simp only [step]
            rw [hw, if_pos hcur, if_neg (by rw [hstopf]; exact Bool.false_ne_true)]
          rw [hstep, hslot]
          refine ⟨H.items_eq, ?_, ?_, ?_, ?_, ?_, ?_, ?_, ?_, ?_, ?_, ?_⟩
          · rw [show ({ s with
                cursor := s.cursor + 1
                callLog := s.callLog ++ [s.cursor]
                data := updateAt s.data p.2 setProcessing
                workers := s.workers.set w (WorkerState.waiting s.cursor) } :
                  BatchState).data = updateAt s.data p.2 setProcessing
              from rfl, updateAt_length]
            exact H.data_len
          · rw [show ({ s with
                cursor := s.cursor + 1
                callLog := s.callLog ++ [s.cursor]
                data := updateAt s.data p.2 setProcessing
                workers := s.workers.set w (WorkerState.waiting s.cursor) } :
                  BatchState).workers =
                s.workers.set w (WorkerState.waiting s.cursor)
              from rfl, List.length_set]
            exact H.workers_len
          · show s.cursor + 1 ≤ (itemsToProcess rows).length
            omega
          · show s.callLog ++ [s.cursor] = List.range (s.cursor + 1)
            rw [H.callLog_eq]
            exact (List.range_succ s.cursor).symm
          · intro w2 j2 h2
            show j2 < s.cursor + 1
            rw [List.get?_set] at h2
            by_cases hww : w = w2
            · rw [if_pos hww] at h2
              cases hg : s.workers.get? w2 with
              | none => rw [hg] at h2; simp at h2
              | some x =>
                rw [hg] at h2
                simp at h2
                omega
            · rw [if_neg hww] at h2
              have := H.waiting_lt w2 j2 h2
              omega
          · intro w1 w2 j2 h1 h2
            rw [List.get?_set] at h1 h2
            by_cases h1w : w = w1
            · by_cases h2w : w = w2
              · rw [← h1w, ← h2w]
              · rw [if_pos h1w] at h1
                rw [if_neg h2w] at h2
                cases hg : s.workers.get? w1 with
                | none => rw [hg] at h1; simp at h1
                | some x =>
                  rw [hg] at h1
                  simp at h1
                  have := H.waiting_lt w2 j2 h2
                  omega
            · by_cases h2w : w = w2
              · rw [if_neg h1w] at h1
                rw [if_pos h2w] at h2
                cases hg : s.workers.get? w2 with
                | none => rw [hg] at h2; simp at h2
                | some x =>
                  rw [hg] at h2
                  simp at h2
                  have := H.waiting_lt w1 j2 h1
                  omega
              · rw [if_neg h1w] at h1
                rw [if_neg h2w] at h2
                exact H.waiting_inj w1 w2 j2 h1 h2
          · intro j2 p2 hj2 hp2
            have hj2c : s.cursor + 1 ≤ j2 := hj2
            have hne : j2 ≠ s.cursor := by omega
            have hsne : p.2 ≠ p2.2 := fun hc =>
              hne (items_get?_snd_inj rows j2 s.cursor p2 p hp2 hpj hc.symm)
            rw [show ({ s with
                cursor := s.cursor + 1
                callLog := s.callLog ++ [s.cursor]
                data := updateAt s.data p.2 setProcessing
                workers := s.workers.set w (WorkerState.waiting s.cursor) } :
                  BatchState).data = updateAt s.data p.2 setProcessing
              from rfl, updateAt_get?_ne _ _ _ _ hsne]
            exact H.unclaimed j2 p2 (by omega) hp2
          · intro j2 p2 hj2 hp2 hex
            by_cases hjj : j2 = s.cursor
            · subst hjj
              have hpp : p2 = p := by
                rw [hpj] at hp2
                exact (Option.some_inj.mp hp2).symm
              subst hpp
              exact updateAt_get?_eq _ _ _ _ hdatac
            · obtain ⟨w2, hw2⟩ := hex
              rw [List.get?_set] at hw2
              by_cases hww : w = w2
              · rw [if_pos hww] at hw2
                cases hg : s.workers.get? w2 with
                | none => rw [hg] at hw2; simp at hw2
                | some x =>
                  rw [hg] at hw2
                  simp at hw2
                  exact absurd hw2.symm hjj
              · rw [if_neg hww] at hw2
                have hj2c : j2 < s.cursor := by
                  have := H.waiting_lt w2 j2 hw2
                  omega
                have hsne : p.2 ≠ p2.2 := fun hc =>
                  hjj (items_get?_snd_inj rows j2 s.cursor p2 p hp2 hpj hc.symm)
                rw [show ({ s with
                    cursor := s.cursor + 1
                    callLog := s.callLog ++ [s.cursor]
                    data := updateAt s.data p.2 setProcessing
                    workers := s.workers.set w (WorkerState.waiting s.cursor) } :
                      BatchState).data = updateAt s.data p.2 setProcessing
                  from rfl, updateAt_get?_ne _ _ _ _ hsne]
                exact H.claimed_waiting j2 p2 hj2c hp2 ⟨w2, hw2⟩
          · intro j2 p2 hj2 hp2 hnone
            by_cases hjj : j2 = s.cursor
            · exfalso
              apply hnone w
              rw [List.get?_set, if_pos rfl, hw, hjj]
              rfl
            · have hold : ∀ w3,
                  s.workers.get? w3 ≠ some (WorkerState.waiting j2) := by
                intro w3 hw3
                by_cases hww : w = w3
                · rw [← hww, hw] at hw3
                  simp at hw3
                · exact hnone w3
                    (by rw [List.get?_set, if_neg hww]; exact hw3)
              have hj2c : j2 < s.cursor := by
                have hj2c1 : j2 < s.cursor + 1 := hj2
                omega
              have hsne : p.2 ≠ p2.2 := fun hc =>
                hjj (items_get?_snd_inj rows j2 s.cursor p2 p hp2 hpj hc.symm)
              rw [show ({ s with
                  cursor := s.cursor + 1
                  callLog := s.callLog ++ [s.cursor]
                  data := updateAt s.data p.2 setProcessing
                  workers := s.workers.set w (WorkerState.waiting s.cursor) } :
                    BatchState).data = updateAt s.data p.2 setProcessing
                from rfl, updateAt_get?_ne _ _ _ _ hsne]
              exact H.claimed_resolved j2 p2 hj2c hp2 hold
          · intro i r hr he
            have hi : p.2 ≠ i := not_mem_items_snd rows i r hr he p
              (List.get?_mem hpj)
            rw [show ({ s with
                cursor := s.cursor + 1
                callLog := s.callLog ++ [s.cursor]
                data := updateAt s.data p.2 setProcessing
                workers := s.workers.set w (WorkerState.waiting s.cursor) } :
                  BatchState).data = updateAt s.data p.2 setProcessing
              from rfl, updateAt_get?_ne _ _ _ _ hi]
            exact H.untouched i r hr he
          · intro hstop2 w2 hw2
            rw [List.get?_set] at hw2
            by_cases hww : w = w2
            · rw [if_pos hww] at hw2
              cases hg : s.workers.get? w2 with
              | none => rw [hg] at hw2; simp at hw2
              | some x => rw [hg] at hw2; simp at hw2
            · rw [if_neg hww] at hw2
              have := H.done_cursor hstopf w2 hw2
              show s.cursor + 1 = (itemsToProcess rows).length
              omega
      · have hstep : step oracle s (BAction.claim w) =
            { s with workers := s.workers.set w WorkerState.done } := by
          simp only [step]
          rw [hw, if_neg hcur]
        rw [hstep]
        have hge : (itemsToProcess rows).length ≤ s.cursor := by
          rw [← H.items_eq]
          omega
        refine ⟨H.items_eq, H.data_len, ?_, H.cursor_le, H.callLog_eq, ?_, ?_,
          H.unclaimed, ?_, ?_, H.untouched, ?_⟩
        · rw [show ({ s with workers := s.workers.set w WorkerState.done } :
              BatchState).workers = s.workers.set w WorkerState.done
            from rfl, List.length_set]
          exact H.workers_len
        · intro w2 j2 h2
          rw [List.get?_set] at h2
          by_cases hww : w = w2
          · rw [if_pos hww] at h2
            cases hg : s.workers.get? w2 with
            | none => rw [hg] at h2; simp at h2
            | some x => rw [hg] at h2; simp at h2
          · rw [if_neg hww] at h2
            exact H.waiting_lt w2 j2 h2
        · intro w1 w2 j2 h1 h2
          rw [List.get?_set] at h1 h2
          by_cases h1w : w = w1
          · rw [if_pos h1w] at h1
            cases hg : s.workers.get? w1 with
            | none => rw [hg] at h1; simp at h1
            | some x => rw [hg] at h1; simp at h1
          · rw [if_neg h1w] at h1
            by_cases h2w : w = w2
            · rw [if_pos h2w] at h2
              cases hg : s.workers.get? w2 with
              | none => rw [hg] at h2; simp at h2
              | some x => rw [hg] at h2; simp at h2
            · rw [if_neg h2w] at h2
              exact H.waiting_inj w1 w2 j2 h1 h2
        · intro j2 p2 hj2 hp2 hex
          obtain ⟨w2, hw2⟩ := hex
          rw [List.get?_set] at hw2
          by_cases hww : w = w2
          · rw [if_pos hww] at hw2
            cases hg : s.workers.get? w2 with
            | none => rw [hg] at hw2; simp at hw2
            | some x => rw [hg] at hw2; simp at hw2
          · rw [if_neg hww] at hw2
            exact H.claimed_waiting j2 p2 hj2 hp2 ⟨w2, hw2⟩
        · intro j2 p2 hj2 hp2 hnone
          have hold : ∀ w3,
              s.workers.get? w3 ≠ some (WorkerState.waiting j2) := by
            intro w3 hw3
            by_cases hww : w = w3
            · rw [← hww, hw] at hw3
              simp at hw3
            · exact hnone w3 (by rw [List.get?_set, if_neg hww]; exact hw3)
          exact H.claimed_resolved j2 p2 hj2 hp2 hold
        · intro hstop2 w2 hw2
          show s.cursor = (itemsToProcess rows).length
          have := H.cursor_le
          omega

/-- Every step preserves the invariant. -/
theorem batchInv_step (rows : List CaptionRow) (oracle : Nat → CallResult)
    (k : Nat) (s : BatchState) (a : BAction) (H : BatchInv rows oracle k s) :
    BatchInv rows oracle k (step oracle s a) := by
  cases a with
  | claim w => exact batchInv_claim rows oracle k s w H
  | resume w => exact batchInv_resume rows oracle k s w H
  | setStop => exact batchInv_setStop rows oracle k s H

/-- The invariant holds after any trace. -/
theorem batchInv_run (rows : List CaptionRow) (oracle : Nat → CallResult)
    (k : Nat) (trace : List BAction) :
    ∀ s, BatchInv rows oracle k s →
      BatchInv rows oracle k (run oracle s trace) := by
  induction trace with
  | nil => intro s H; exact H
  | cons a t ih =>
    intro s H
    exact ih (step oracle s a) (batchInv_step rows oracle k s a H)

/-- The invariant holds at every reachable state of a run. -/
theorem batchInv_reach (rows : List CaptionRow) (oracle : Nat → CallResult)
    (k : Nat) (trace : List BAction) :
    BatchInv rows oracle k (run oracle (initState rows k) trace) :=
  batchInv_run rows oracle k trace (initState rows k)
    (batchInv_init rows oracle k)

/-! ### Batch orchestrator: the stop flag -/

/-- Once the stop flag is set, no step unsets it, claims a slot, or logs a
call. -/
theorem step_frozen_of_stop (oracle : Nat → CallResult) (s : BatchState)
    (a : BAction) (h : s.stop = true) :
    (step oracle s a).stop = true ∧ (step oracle s a).cursor = s.cursor ∧
    (step oracle s a).callLog = s.callLog := by
  cases a with
  | setStop => exact ⟨rfl, rfl, rfl⟩
  | resume w =>
    cases hw : s.workers.get? w with
    | none =>
      have hstep : step oracle s (BAction.resume w) = s := by
        simp only [step]; rw [hw]
      rw [hstep]
      exact ⟨h, rfl, rfl⟩
    | some ws =>
      cases ws with
      | running =>
        have hstep : step oracle s (BAction.resume w) = s := by
          simp only [step]; rw [hw]
        rw [hstep]
        exact ⟨h, rfl, rfl⟩
      | done =>
        have hstep : step oracle s (BAction.resume w) = s := by
          simp only [step]; rw [hw]
        rw [hstep]
        exact ⟨h, rfl, rfl⟩
      | waiting j =>
        have hstep : step oracle s (BAction.resume w) =
            { s with
              data := updateAt s.data (slotIdx s j) (resolveCall (oracle j))
              workers := s.workers.set w WorkerState.running } := by
          simp only [step]; rw [hw]
        rw [hstep]
        exact ⟨h, rfl, rfl⟩
  | claim w =>
    cases hw : s.workers.get? w with
    | none =>
      have hstep : step oracle s (BAction.claim w) = s := by
        simp only [step]; rw [hw]
      rw [hstep]
      exact ⟨h, rfl, rfl⟩
    | some ws =>
      cases ws with
      | waiting j =>
        have hstep : step oracle s (BAction.claim w) = s := by
          simp only [step]; rw [hw]
        rw [hstep]
        exact ⟨h, rfl, rfl⟩
      | done =>
        have hstep : step oracle s (BAction.claim w) = s := by
          simp only [step]; rw [hw]
        rw [hstep]
        exact ⟨h, rfl, rfl⟩
      | running =>
        by_cases hcur : s.cursor < s.items.length
        · have hstep : step oracle s (BAction.claim w) =
              { s with workers := s.workers.set w WorkerState.done } := by
            simp only [step]; rw [hw, if_pos hcur, if_pos h]
          rw [hstep]
          exact ⟨h, rfl, rfl⟩
        · have hstep : step oracle s (BAction.claim w) =
              { s with workers := s.workers.set w WorkerState.done } := by
            simp only [step]; rw [hw, if_neg hcur]
          rw [hstep]
          exact ⟨h, rfl, rfl⟩

/-- After a stop, the rest of the trace dispatches nothing new. -/
theorem run_frozen_of_stop (oracle : Nat → CallResult) (trace : List BAction) :
    ∀ s, s.stop = true →
      (run oracle s trace).stop = true ∧
      (run oracle s trace).cursor = s.cursor ∧
      (run oracle s trace).callLog = s.callLog := by
  induction trace with
  | nil => intro s h; exact ⟨h, rfl, rfl⟩
  | cons a t ih =>
    intro s h
    obtain ⟨h1, h2, h3⟩ := step_frozen_of_stop oracle s a h
    obtain ⟨g1, g2, g3⟩ := ih (step oracle s a) h1
    refine ⟨g1, ?_, ?_⟩
    · rw [show run oracle s (a :: t) = run oracle (step oracle s a) t
        from rfl, g2, h2]
    · rw [show run oracle s (a :: t) = run oracle (step oracle s a) t
        from rfl, g3, h3]

/-- Only `stopProcessing` touches the stop flag. -/
theorem step_stop_eq (oracle : Nat → CallResult) (s : BatchState)
    (a : BAction) (ha : a ≠ BAction.setStop) :
    (step oracle s a).stop = s.stop := by
  cases a with
  | setStop => exact absurd rfl ha
  | resume w =>
    cases hw : s.workers.get? w with
    | none =>
      rw [show step oracle s (BAction.resume w) = s by
        simp only [step]; rw [hw]]
    | some ws =>
      cases ws with
      | running =>
        rw [show step oracle s (BAction.resume w) = s by
          simp only [step]; rw [hw]]
      | done =>
        rw [show step oracle s (BAction.resume w) = s by
          simp only [step]; rw [hw]]
      | waiting j =>
        rw [show step oracle s (BAction.resume w) =
            { s with
              data := updateAt s.data (slotIdx s j) (resolveCall (oracle j))
              workers := s.workers.set w WorkerState.running } by
          simp only [step]; rw [hw]]
  | claim w =>
    cases hw : s.workers.get? w with
    | none =>
      rw [show step oracle s (BAction.claim w) = s by
        simp only [step]; rw [hw]]
    | some ws =>
      cases ws with
      | waiting j =>
        rw [show step oracle s (BAction.claim w) = s by
          simp only [step]; rw [hw]]
      | done =>
        rw [show step oracle s (BAction.claim w) = s by
          simp only [step]; rw [hw]]
      | running =>
        by_cases hcur : s.cursor < s.items.length
        · by_cases hstop : s.stop = true
          · rw [show step oracle s (BAction.claim w) =
                { s with workers := s.workers.set w WorkerState.done } by
              simp only [step]; rw [hw, if_pos hcur, if_pos hstop]]
          · have hstopf : s.stop = false := by
              cases hsb : s.stop with
              | false => rfl
              | true => exact absurd hsb hstop
            rw [show step oracle s (BAction.claim w) = { s with
                cursor := s.cursor + 1
                callLog := s.callLog ++ [s.cursor]
                data := updateAt s.data (slotIdx s s.cursor) setProcessing
                workers := s.workers.set w (WorkerState.waiting s.cursor) } by
              simp only [step]
              rw [hw, if_pos hcur,
                if_neg (by rw [hstopf]; exact Bool.false_ne_true)]]
        · rw [show step oracle s (BAction.claim w) =
              { s with workers := s.workers.set w WorkerState.done } by
            simp only [step]; rw [hw, if_neg hcur]]

/-- A trace without a stop request leaves the flag clear. -/
theorem run_stop_false (oracle : Nat → CallResult) (trace : List BAction) :
    ∀ s, s.stop = false → BAction.setStop ∉ trace →
      (run oracle s trace).stop = false := by
  induction trace with
  | nil => intro s h _; exact h
  | cons a t ih =>
    intro s h hmem
    have ha : a ≠ BAction.setStop := fun hc => hmem (hc ▸ List.mem_cons_self a t)
    have h2 : (step oracle s a).stop = false := by
      rw [step_stop_eq oracle s a ha]; exact h
    exact ih (step oracle s a) h2
      (fun hc => hmem (List.mem_cons_of_mem a hc))

/-- When `Promise.all` has resolved, no worker is still awaiting a call. -/
theorem no_waiting_of_allDone (s : BatchState) (h : allDone s = true) :
    ∀ w j, s.workers.get? w ≠ some (WorkerState.waiting j) := by
  intro w j hw
  have hmem := List.get?_mem hw
  have := List.all_eq_true.mp h _ hmem
  simp at this

/-- With at least one worker, completion exhibits a returned worker. -/
theorem done_worker_of_allDone (s : BatchState) (h : allDone s = true)
    (hl : 0 < s.workers.length) :
    s.workers.get? 0 = some WorkerState.done := by
  obtain ⟨x, hx⟩ : ∃ x, s.workers.get? 0 = some x := by
    cases hg : s.workers.get? 0 with
    | none =>
      have := List.get?_eq_none.mp hg
      omega
    | some x => exact ⟨x, rfl⟩
  have hbeq := List.all_eq_true.mp h _ (List.get?_mem hx)
  have hxd : x = WorkerState.done := by simpa using hbeq
  rw [hx, hxd]

/-! ### Batch processing runs to completion (C1) -/

/-- The queue length is the number of pending/error rows. -/
theorem itemsToProcess_length (rows : List CaptionRow) :
    (itemsToProcess rows).length = (rows.filter isEligible).length :=
  itemsToProcessAux_length rows 0

/-- C1 counterexample: over a list whose only row is already in
`processing` status, a run with no stop request completes (all workers
returned, zero transform calls) yet the row is still in `processing`
afterwards — contradicting the claim that no row is left in `processing`. -/
theorem batch_counterexample :
    allDone batchCexState = true ∧
    batchCexState.callLog = [] ∧
    batchCexState.data.get? 0 = some rowProcessing ∧
    rowProcessing.status = Status.processing :=
  ⟨rfl, rfl, rfl, rfl⟩

/-- C1 amended: provided no row starts in `processing` status, a completed
run (every worker returned) with no stop request invokes the transform
exactly once per pending/error row — the call log is exactly the slots
`0..N-1` in claim order, `N` the number of pending/error rows — and
afterwards no row is in `processing`: every claimed row ends `completed` or
`error` with its outcome written back. -/
theorem batch_processes_all (rows : List CaptionRow)
    (oracle : Nat → CallResult) (trace : List BAction)
    (hnp : ∀ r ∈ rows, r.status ≠ Status.processing)
    (hns : BAction.setStop ∉ trace)
    (hdone : allDone (run oracle (initState rows 3) trace) = true) :
    (run oracle (initState rows 3) trace).callLog =
      List.range (rows.filter isEligible).length ∧
    (∀ i r, (run oracle (initState rows 3) trace).data.get? i = some r →
      r.status ≠ Status.processing) ∧
    (∀ j p, (itemsToProcess rows).get? j = some p →
      (run oracle (initState rows 3) trace).data.get? p.2 =
        some (resolveCall (oracle j) (setProcessing p.1)) ∧
      ((resolveCall (oracle j) (setProcessing p.1)).status = Status.completed ∨
        (resolveCall (oracle j) (setProcessing p.1)).status = Status.err)) := by
  have Hinv := batchInv_reach rows oracle 3 trace
  have hstopf : (run oracle (initState rows 3) trace).stop = false :=
    run_stop_false oracle trace (initState rows 3) rfl hns
  have hw0 : (run oracle (initState rows 3) trace).workers.get? 0 =
      some WorkerState.done :=
    done_worker_of_allDone _ hdone (by rw [Hinv.workers_len]; omega)
  have hcur : (run oracle (initState rows 3) trace).cursor =
      (itemsToProcess rows).length := Hinv.done_cursor hstopf 0 hw0
  have hnw := no_waiting_of_allDone _ hdone
  refine ⟨?_, ?_, ?_⟩
  · rw [Hinv.callLog_eq, hcur, itemsToProcess_length rows]
  · intro i r hr
    have hlen : i < rows.length := by
      have hi := (List.get?_eq_some.mp hr).1
      rw [Hinv.data_len] at hi
      exact hi
    obtain ⟨r0, hr0⟩ := get?_of_lt rows i hlen
    by_cases he : isEligible r0 = true
    · have hmem : (r0, i) ∈ itemsToProcess rows := by
        have := itemsToProcessAux_mem_of_eligible rows 0 i r0 hr0 he
        simpa using this
      obtain ⟨j, hj⟩ := List.mem_iff_get?.mp hmem
      have hjlt : j < (itemsToProcess rows).length :=
        (List.get?_eq_some.mp hj).1
      have hres := Hinv.claimed_resolved j (r0, i)
        (by rw [hcur]; exact hjlt) hj (fun w => hnw w j)
      rw [hres] at hr
      have hrv : r = resolveCall (oracle j) (setProcessing r0) :=
        (Option.some_inj.mp hr).symm
      rcases resolveCall_status (oracle j) (setProcessing r0) with h1 | h1 <;>
        rw [hrv] <;> rw [h1] <;> decide
    · have he2 : isEligible r0 = false := by
        cases hb : isEligible r0 with
        | false => rfl
        | true => exact absurd hb he
      have hun := Hinv.untouched i r0 hr0 he2
      rw [hun] at hr
      have hrv : r = r0 := (Option.some_inj.mp hr).symm
      rw [hrv]
      exact hnp r0 (List.get?_mem hr0)
  · intro j p hpj
    have hjlt : j < (itemsToProcess rows).length :=
      (List.get?_eq_some.mp hpj).1
    exact ⟨Hinv.claimed_resolved j p (by rw [hcur]; exact hjlt) hpj
      (fun w => hnw w j), resolveCall_status _ _⟩

/-- Witness for the amended C1 on a concrete one-row run. -/
theorem batch_processes_all_witness :
    batchOkState.callLog = List.range 1 ∧
    batchOkState.data.get? 0 =
      some (resolveCall (oracleOk 0) (setProcessing rowPending)) := by
  have h := batch_processes_all [rowPending] oracleOk batchOkTrace
    (by decide) (by decide) rfl
  exact ⟨h.1.trans (by rfl), (h.2.2 0 (rowPending, 0) rfl).1⟩

/-! ### Stopping mid-batch (C2) -/

/-- C2 counterexample: a batch over one `error`-status row stopped before
any claim completes with the row still in `error` status — not `pending` as
the claim states for never-claimed rows. -/
theorem stop_counterexample :
    allDone stopCexState = true ∧
    stopCexState.callLog = [] ∧
    stopCexState.data.get? 0 = some rowErrored ∧
    rowErrored.status = Status.err ∧
    Status.err ≠ Status.pending :=
  ⟨rfl, rfl, rfl, rfl, by decide⟩

/-- C2 amended: once the stop request lands, no further row is claimed (the
call log freezes), every row dispatched before the stop still gets its
outcome written back and ends `completed` or `error`, and every row not yet
claimed keeps its initial status — `pending` or `error` (not necessarily
`pending`: `error` rows are re-included in a run and keep `error`). -/
theorem stop_leaves_dispatched (rows : List CaptionRow)
    (oracle : Nat → CallResult) (t1 t2 : List BAction)
    (hdone : allDone (run oracle (initState rows 3)
      (t1 ++ BAction.setStop :: t2)) = true) :
    (run oracle (initState rows 3) (t1 ++ BAction.setStop :: t2)).callLog =
      (run oracle (initState rows 3) t1).callLog ∧
    (run oracle (initState rows 3) (t1 ++ BAction.setStop :: t2)).cursor =
      (run oracle (initState rows 3) t1).cursor ∧
    (∀ j p, j < (run oracle (initState rows 3) t1).cursor →
      (itemsToProcess rows).get? j = some p →
      (run oracle (initState rows 3) (t1 ++ BAction.setStop :: t2)).data.get?
          p.2 = some (resolveCall (oracle j) (setProcessing p.1)) ∧
      ((resolveCall (oracle j) (setProcessing p.1)).status = Status.completed ∨
        (resolveCall (oracle j) (setProcessing p.1)).status = Status.err)) ∧
    (∀ j p, (run oracle (initState rows 3) t1).cursor ≤ j →
      (itemsToProcess rows).get? j = some p →
      (run oracle (initState rows 3) (t1 ++ BAction.setStop :: t2)).data.get?
          p.2 = some p.1 ∧
      (p.1.status = Status.pending ∨ p.1.status = Status.err)) := by
  have hsplit : run oracle (initState rows 3) (t1 ++ BAction.setStop :: t2) =
      run oracle (step oracle (run oracle (initState rows 3) t1)
        BAction.setStop) t2 := by
    unfold run
    rw [List.foldl_append, List.foldl_cons]
  have Hinv := batchInv_reach rows oracle 3 (t1 ++ BAction.setStop :: t2)
  have hfrozen := run_frozen_of_stop oracle t2
    (step oracle (run oracle (initState rows 3) t1) BAction.setStop) rfl
  rw [hsplit] at hdone Hinv ⊢
  have hnw := no_waiting_of_allDone _ hdone
  have hcur2 : (run oracle (step oracle (run oracle (initState rows 3) t1)
      BAction.setStop) t2).cursor =
      (run oracle (initState rows 3) t1).cursor := hfrozen.2.1
  refine ⟨hfrozen.2.2, hcur2, ?_, ?_⟩
  · intro j p hj hpj
    exact ⟨Hinv.claimed_resolved j p (by rw [hcur2]; exact hj) hpj
      (fun w => hnw w j), resolveCall_status _ _⟩
  · intro j p hj hpj
    refine ⟨Hinv.unclaimed j p (by rw [hcur2]; exact hj) hpj, ?_⟩
    exact isEligible_status p.1
      (itemsToProcess_mem rows p (List.get?_mem hpj)).2

/-- Witness for the amended C2: the row dispatched before the stop gets its
result written back after the stop. -/
theorem stop_leaves_dispatched_witness :
    (run oracleOk (initState [rowPending] 3)
        (stopOkT1 ++ BAction.setStop :: stopOkT2)).data.get? 0 =
      some (resolveCall (oracleOk 0) (setProcessing rowPending)) := by
  have h := stop_leaves_dispatched [rowPending] oracleOk stopOkT1 stopOkT2 rfl
  exact (h.2.2.1 0 (rowPending, 0) (by decide) rfl).1

/-! ### Status transitions are monotonic within a run (C9) -/

/-- C9: within a run, any single scheduler step changes a row's status only
forward — from `pending`/`error` to `processing` when claimed, or from
`processing` to `completed`/`error` when its call settles — and rows
already `completed` at run start are never touched at all. -/
theorem status_monotonic (rows : List CaptionRow)
    (oracle : Nat → CallResult) (trace : List BAction) (a : BAction) :
    (∀ i r r2,
      (run oracle (initState rows 3) trace).data.get? i = some r →
      (step oracle (run oracle (initState rows 3) trace) a).data.get? i =
        some r2 →
      r ≠ r2 →
      ((r.status = Status.pending ∨ r.status = Status.err) ∧
        r2.status = Status.processing) ∨
      (r.status = Status.processing ∧
        (r2.status = Status.completed ∨ r2.status = Status.err))) ∧
    (∀ i r, rows.get? i = some r → r.status = Status.completed →
      (run oracle (initState rows 3) trace).data.get? i = some r) := by
  have Hinv := batchInv_reach rows oracle 3 trace
  constructor
  · intro i r r2 hr hr2 hne
    cases a with
    | setStop =>
      exfalso
      apply hne
      have hr2c : (run oracle (initState rows 3) trace).data.get? i =
          some r2 := hr2
      rw [hr] at hr2c
      exact Option.some_inj.mp hr2c
    | resume w =>
      cases hw : (run oracle (initState rows 3) trace).workers.get? w with
      | none =>
        exfalso
        apply hne
        have hstep : step oracle (run oracle (initState rows 3) trace)
            (BAction.resume w) = run oracle (initState rows 3) trace := by
          simp only [step]; rw [hw]
        rw [hstep, hr] at hr2
        exact Option.some_inj.mp hr2
      | some ws =>
        cases ws with
        | running =>
          exfalso
          apply hne
          have hstep : step oracle (run oracle (initState rows 3) trace)
              (BAction.resume w) = run oracle (initState rows 3) trace := by
            simp only [step]; rw [hw]
          rw [hstep, hr] at hr2
          exact Option.some_inj.mp hr2
        | done =>
          exfalso
          apply hne
          have hstep : step oracle (run oracle (initState rows 3) trace)
              (BAction.resume w) = run oracle (initState rows 3) trace := by
            simp only [step]; rw [hw]
          rw [hstep, hr] at hr2
          exact Option.some_inj.mp hr2
        | waiting j =>
          have hjc := Hinv.waiting_lt w j hw
          obtain ⟨p, hpj⟩ := get?_of_lt (itemsToProcess rows) j
            (lt_of_lt_of_le hjc Hinv.cursor_le)
          have hslot : slotIdx (run oracle (initState rows 3) trace) j =
              p.2 := by
            unfold slotIdx
            rw [Hinv.items_eq, hpj]
          have hr2c : (updateAt (run oracle (initState rows 3) trace).data
              p.2 (resolveCall (oracle j))).get? i = some r2 := by
            have hstep : step oracle (run oracle (initState rows 3) trace)
                (BAction.resume w) =
                { run oracle (initState rows 3) trace with
                  data := updateAt (run oracle (initState rows 3) trace).data
                    (slotIdx (run oracle (initState rows 3) trace) j)
                    (resolveCall (oracle j))
                  workers := (run oracle (initState rows 3)
                    trace).workers.set w WorkerState.running } := by
              simp only [step]; rw [hw]
            rw [hstep] at hr2
            rw [← hslot]
            exact hr2
          by_cases hip : p.2 = i
          · subst hip
            have hdataj : (run oracle (initState rows 3) trace).data.get?
                p.2 = some (setProcessing p.1) :=
              Hinv.claimed_waiting j p hjc hpj ⟨w, hw⟩
            have hrv : r = setProcessing p.1 := by
              rw [hdataj] at hr
              exact (Option.some_inj.mp hr).symm
            rw [updateAt_get?_eq _ _ _ r hr] at hr2c
            have hr2v : r2 = resolveCall (oracle j) r :=
              (Option.some_inj.mp hr2c).symm
            right
            refine ⟨by rw [hrv]; rfl, ?_⟩
            rw [hr2v]
            exact resolveCall_status (oracle j) r
          · exfalso
            apply hne
            rw [updateAt_get?_ne _ _ _ _ hip, hr] at hr2c
            exact Option.some_inj.mp hr2c
    | claim w =>
      cases hw : (run oracle (initState rows 3) trace).workers.get? w with
      | none =>
        exfalso
        apply hne
        have hstep : step oracle (run oracle (initState rows 3) trace)
            (BAction.claim w) = run oracle (initState rows 3) trace := by
          simp only [step]; rw [hw]
        rw [hstep, hr] at hr2
        exact Option.some_inj.mp hr2
      | some ws =>
        cases ws with
        | waiting j =>
          exfalso
          apply hne
          have hstep : step oracle (run oracle (initState rows 3) trace)
              (BAction.claim w) = run oracle (initState rows 3) trace := by
            simp only [step]; rw [hw]
          rw [hstep, hr] at hr2
          exact Option.some_inj.mp hr2
        | done =>
          exfalso
          apply hne
          have hstep : step oracle (run oracle (initState rows 3) trace)
              (BAction.claim w) = run oracle (initState rows 3) trace := by
            simp only [step]; rw [hw]
          rw [hstep, hr] at hr2
          exact Option.some_inj.mp hr2
        | running =>
          by_cases hcur : (run oracle (initState rows 3) trace).cursor <
              (run oracle (initState rows 3) trace).items.length
          · by_cases hstop : (run oracle (initState rows 3) trace).stop = true
            · exfalso
              apply hne
              have hstep : step oracle (run oracle (initState rows 3) trace)
                  (BAction.claim w) =
                  { run oracle (initState rows 3) trace with
                    workers := (run oracle (initState rows 3)
                      trace).workers.set w WorkerState.done } := by
                simp only [step]; rw [hw, if_pos hcur, if_pos hstop]
              rw [hstep] at hr2
              have hr2c : (run oracle (initState rows 3) trace).data.get? i =
                  some r2 := hr2
              rw [hr] at hr2c
              exact Option.some_inj.mp hr2c
            · have hstopf : (run oracle (initState rows 3) trace).stop =
                  false := by
                cases hsb : (run oracle (initState rows 3) trace).stop with
                | false => rfl
                | true => exact absurd hsb hstop
              have hcur2 : (run oracle (initState rows 3) trace).cursor <
                  (itemsToProcess rows).length := by
                rw [← Hinv.items_eq]
                exact hcur
              obtain ⟨p, hpj⟩ := get?_of_lt (itemsToProcess rows) _ hcur2
              have hslot : slotIdx (run oracle (initState rows 3) trace)
                  (run oracle (initState rows 3) trace).cursor = p.2 := by
                unfold slotIdx
                rw [Hinv.items_eq, hpj]
              have hr2c : (updateAt (run oracle (initState rows 3) trace).data
                  p.2 setProcessing).get? i = some r2 := by
                have hstep : step oracle (run oracle (initState rows 3) trace)
                    (BAction.claim w) =
                    { run oracle (initState rows 3) trace with
                      cursor := (run oracle (initState rows 3) trace).cursor + 1
                      callLog := (run oracle (initState rows 3) trace).callLog
                        ++ [(run oracle (initState rows 3) trace).cursor]
                      data := updateAt
                        (run oracle (initState rows 3) trace).data
                        (slotIdx (run oracle (initState rows 3) trace)
                          (run oracle (initState rows 3) trace).cursor)
                        setProcessing
                      workers := (run oracle (initState rows 3)
                        trace).workers.set w (WorkerState.waiting
                          (run oracle (initState rows 3) trace).cursor) } := by
                  simp only [step]
                  rw [hw, if_pos hcur,
                    if_neg (by rw [hstopf]; exact Bool.false_ne_true)]
                rw [hstep] at hr2
                rw [← hslot]
                exact hr2
              by_cases hip : p.2 = i
              · subst hip
                have hdatac : (run oracle (initState rows 3) trace).data.get?
                    p.2 = some p.1 :=
                  Hinv.unclaimed _ p (Nat.le_refl _) hpj
                have hrv : r = p.1 := by
                  rw [hdatac] at hr
                  exact (Option.some_inj.mp hr).symm
                rw [updateAt_get?_eq _ _ _ r hr] at hr2c
                have hr2v : r2 = setProcessing r :=
                  (Option.some_inj.mp hr2c).symm
                left
                refine ⟨?_, by rw [hr2v]; rfl⟩
                rw [hrv]
                exact isEligible_status p.1
                  (itemsToProcess_mem rows p (List.get?_mem hpj)).2
              · exfalso
                apply hne
                rw [updateAt_get?_ne _ _ _ _ hip, hr] at hr2c
                exact Option.some_inj.mp hr2c
          · exfalso
            apply hne
            have hstep : step oracle (run oracle (initState rows 3) trace)
                (BAction.claim w) =
                { run oracle (initState rows 3) trace with
                  workers := (run oracle (initState rows 3)
                    trace).workers.set w WorkerState.done } := by
              simp only [step]; rw [hw, if_neg hcur]
            rw [hstep] at hr2
            have hr2c : (run oracle (initState rows 3) trace).data.get? i =
                some r2 := hr2
            rw [hr] at hr2c
            exact Option.some_inj.mp hr2c
  · intro i r hr hst
    exact Hinv.untouched i r hr (isEligible_completed r hst)

/-- Witness for C9: a `completed` row is untouched by a run, and a claim
step moves a pending row exactly to `processing`. -/
theorem status_monotonic_witness :
    (run oracleOk (initState [rowDone] 3) []).data.get? 0 = some rowDone ∧
    (((rowPending.status = Status.pending ∨ rowPending.status = Status.err) ∧
        (setProcessing rowPending).status = Status.processing) ∨
      (rowPending.status = Status.processing ∧
        ((setProcessing rowPending).status = Status.completed ∨
          (setProcessing rowPending).status = Status.err))) :=
  ⟨(status_monotonic [rowDone] oracleOk [] BAction.setStop).2 0 rowDone rfl
      rfl,
    (status_monotonic [rowPending] oracleOk [] (BAction.claim 0)).1 0
      rowPending (setProcessing rowPending) rfl rfl (by decide)⟩

end Pizhushou
